import Mathlib

/-
Shallow embedding of the go-json codec (package json: marshal.go / unmarshal.go).

Streams are modelled at the rune level as `List Char`: `bufio.Reader.ReadRune`
becomes head/tail, `UnreadRune` becomes re-consing the read rune, and end of
stream is the empty list.  `bufio.Reader.Read(buf[:n])` is modelled as taking
the next `n` runes (short read only at end of stream); all inputs exercised by
the development at those call sites are ASCII, where runes and bytes coincide.
Errors built with fmt.Errorf are modelled by the inductive `JErr`, one
constructor per distinct error site (wrapped read errors are collapsed into
`readRuneFail`, the only read failure a pure model can produce being end of
stream).  Go's `int64` is modelled as `Int` with explicit range checks where
strconv performs them, and `float64` as the exact rational value of the IEEE-754
binary64 number, with rounding made explicit in `roundFloat64`.
-/

namespace GoJson

/-
IEEE-754 binary64 model.  A finite float64 is identified with the exact
rational number it denotes, written canonically as an odd integer times a
power of two (`F64`); rounding a rational onto that set is made explicit in
`roundFloat64`.  Exact rational arithmetic is carried out on unnormalized
integer fractions (`Frac`) so that every step is a plain integer computation.
Negative zero is conflated with zero (no claim in this development
distinguishes them).
-/

/-- 2^k as a shift, cheap to reduce definitionally even for large k. -/
def pow2 (k : Nat) : Nat := 1 <<< k

/-- Fuel-driven binary exponentiation for powers of ten. -/
def pow10F : Nat → Nat → Nat
  | 0, _ => 1
  | fuel + 1, k =>
    if k = 0 then 1
    else
      let h := pow10F fuel (k / 2)
      h * h * (if k % 2 = 1 then 10 else 1)

/-- 10^k, cheap to reduce definitionally even for large k. -/
def pow10 (k : Nat) : Nat := pow10F k k

/-- An unnormalized fraction num/den; every construction in this development
keeps den positive. -/
structure Frac where
  num : Int
  den : Nat

/-- Fraction comparison a < b (for positive denominators). -/
def Frac.lt (a b : Frac) : Bool := a.num * b.den < b.num * a.den

/-- Fraction comparison a ≤ b (for positive denominators). -/
def Frac.le (a b : Frac) : Bool := a.num * b.den ≤ b.num * a.den

/-- Floor of a fraction (for a positive denominator). -/
def Frac.floor (a : Frac) : Int := Int.fdiv a.num a.den

/-- Round a fraction to the nearest integer, ties to even. -/
def Frac.roundHalfEven (a : Frac) : Int :=
  let f := a.floor
  let r2 : Int := 2 * (a.num - f * a.den)
  if r2 < (a.den : Int) then f
  else if (a.den : Int) < r2 then f + 1
  else if f % 2 = 0 then f else f + 1

/-- Multiply a fraction by 2^k, k of either sign. -/
def Frac.mulPow2 (a : Frac) (k : Int) : Frac :=
  if 0 ≤ k then ⟨a.num * ((pow2 k.toNat : Nat) : Int), a.den⟩
  else ⟨a.num, a.den * pow2 (-k).toNat⟩

/-- Multiply a fraction by 10^k, k of either sign. -/
def Frac.mulPow10 (a : Frac) (k : Int) : Frac :=
  if 0 ≤ k then ⟨a.num * ((pow10 k.toNat : Nat) : Int), a.den⟩
  else ⟨a.num, a.den * pow10 (-k).toNat⟩

/-- Fuel-driven floor base-2 logarithm of a natural number. -/
def natLog2F : Nat → Nat → Nat
  | 0, _ => 0
  | fuel + 1, n => if 2 ≤ n then natLog2F fuel (n / 2) + 1 else 0

/-- Floor base-2 logarithm (fuel n is always sufficient). -/
def natLog2 (n : Nat) : Nat := natLog2F n n

/-- Fuel-driven floor base-10 logarithm of a natural number. -/
def natLog10F : Nat → Nat → Nat
  | 0, _ => 0
  | fuel + 1, n => if 10 ≤ n then natLog10F fuel (n / 10) + 1 else 0

/-- Floor base-10 logarithm (fuel n is always sufficient). -/
def natLog10 (n : Nat) : Nat := natLog10F n n

/-- Floor base-2 logarithm of a positive fraction. -/
def Frac.log2 (a : Frac) : Int :=
  let d : Int := (natLog2 a.num.toNat : Int) - (natLog2 a.den : Int)
  if Frac.le (Frac.mulPow2 ⟨1, 1⟩ d) a then d else d - 1

/-- Floor base-10 logarithm of a positive fraction. -/
def Frac.log10 (a : Frac) : Int :=
  let d : Int := (natLog10 a.num.toNat : Int) - (natLog10 a.den : Int)
  if Frac.le (Frac.mulPow10 ⟨1, 1⟩ d) a then d else d - 1

/-- A finite binary64 value m·2^e in canonical form: m odd, except that zero
is represented as m = 0, e = 0. -/
structure F64 where
  m : Int
  e : Int
deriving DecidableEq

/-- Divide out factors of two (fuel-driven), tracking the binary exponent. -/
def oddPart : Nat → Int → Int → F64
  | 0, m, e => ⟨m, e⟩
  | fuel + 1, m, e =>
    if m ≠ 0 ∧ m % 2 = 0 then oddPart fuel (m / 2) (e + 1) else ⟨m, e⟩

/-- Canonical F64 from an integer mantissa and binary exponent. -/
def mkF64 (n : Int) (ge : Int) : F64 :=
  if n = 0 then ⟨0, 0⟩ else oddPart n.natAbs n ge

/-- Exact value of a binary64 as a fraction. -/
def F64.toFrac (x : F64) : Frac := Frac.mulPow2 ⟨x.m, 1⟩ x.e

/-- Smallest magnitude that rounds to infinity in binary64: the largest
finite float64 plus half an ulp, (2^54 - 1)·2^970 (ties-to-even pushes the
boundary itself to infinity). -/
def f64Overflow : Frac := ⟨(((pow2 54 - 1) * pow2 970 : Nat) : Int), 1⟩

/-- Round-to-nearest-even of an exact fraction into binary64; none on
overflow to infinity (Go strconv's range error). -/
def roundFloat64 (x : Frac) : Option F64 :=
  if x.num = 0 then some ⟨0, 0⟩
  else
    let y : Frac := ⟨(x.num.natAbs : Int), x.den⟩
    let sgn : Int := if x.num < 0 then -1 else 1
    if Frac.le f64Overflow y then none
    else
      let ge : Int :=
        if Frac.lt y (Frac.mulPow2 ⟨1, 1⟩ (-1022)) then -1074
        else Frac.log2 y - 52
      let n := Frac.roundHalfEven (Frac.mulPow2 y (-ge))
      some (mkF64 (sgn * n) ge)

/-- The binary64 nearest to an integer (exact whenever the magnitude is
below 2^53). -/
def f64OfInt (n : Int) : F64 := (roundFloat64 ⟨n, 1⟩).getD ⟨0, 0⟩

/-- The JSON value model: Go's `interface{}` values produced by the decoder
(nil, bool, int64, float64, string, []interface{}, map[string]interface{}).
Strings are sequences of runes; objects are association lists standing for
Go's map (insertion with overwrite, iteration order unspecified). -/
inductive Value where
  | null : Value
  | bool (b : Bool) : Value
  | integer (n : Int) : Value
  | float (x : F64) : Value
  | string (s : List Char) : Value
  | array (vs : List Value) : Value
  | object (entries : List (List Char × Value)) : Value

/-- One constructor per distinct error construction site in unmarshal.go. -/
inductive JErr where
  | outOfFuel : JErr
  | readRuneFail : JErr
  | unexpectedChar (c : Char) : JErr
  | objectNoOpen : JErr
  | objectKeyFail (e : JErr) : JErr
  | objectNoColon (key : List Char) : JErr
  | objectValueFail (key : List Char) : JErr
  | arrayNoOpen : JErr
  | arrayValueFail (e : JErr) : JErr
  | arrayNoCommaOrBracket : JErr
  | literalShortRead (n : Nat) : JErr
  | literalMismatch (found : List Char) : JErr
  | invalidNumberChar (buf : List Char) : JErr
  | intConvFail (buf : List Char) : JErr
  | floatConvFail (buf : List Char) : JErr
  | stringNoQuote (c : Char) : JErr
  | invalidEscape (c : Char) : JErr
  | unicodeConvFail : JErr

/-- From unmarshal.go: isJsonWhitespace. -/
def isJsonWhitespace (c : Char) : Bool :=
  c == ' ' || c == '\n' || c == '\x0D' || c == '\t'

/-- The Unicode Nd (decimal digit) category ranges, as tabulated in Go's
unicode package (unicode.Digit, Unicode 15.0, Go 1.21 and later; Unicode
15.1 adds no Nd characters); used by unicode.IsDigit above Latin-1. -/
def ndRanges : List (Nat × Nat) :=
  [(0x0030, 0x0039), (0x0660, 0x0669), (0x06F0, 0x06F9), (0x07C0, 0x07C9),
   (0x0966, 0x096F), (0x09E6, 0x09EF), (0x0A66, 0x0A6F), (0x0AE6, 0x0AEF),
   (0x0B66, 0x0B6F), (0x0BE6, 0x0BEF), (0x0C66, 0x0C6F), (0x0CE6, 0x0CEF),
   (0x0D66, 0x0D6F), (0x0DE6, 0x0DEF), (0x0E50, 0x0E59), (0x0ED0, 0x0ED9),
   (0x0F20, 0x0F29), (0x1040, 0x1049), (0x1090, 0x1099), (0x17E0, 0x17E9),
   (0x1810, 0x1819), (0x1946, 0x194F), (0x19D0, 0x19D9), (0x1A80, 0x1A89),
   (0x1A90, 0x1A99), (0x1B50, 0x1B59), (0x1BB0, 0x1BB9), (0x1C40, 0x1C49),
   (0x1C50, 0x1C59), (0xA620, 0xA629), (0xA8D0, 0xA8D9), (0xA900, 0xA909),
   (0xA9D0, 0xA9D9), (0xA9F0, 0xA9F9), (0xAA50, 0xAA59), (0xABF0, 0xABF9),
   (0xFF10, 0xFF19), (0x104A0, 0x104A9), (0x10D30, 0x10D39),
   (0x11066, 0x1106F), (0x110F0, 0x110F9), (0x11136, 0x1113F),
   (0x111D0, 0x111D9), (0x112F0, 0x112F9), (0x11450, 0x11459),
   (0x114D0, 0x114D9), (0x11650, 0x11659), (0x116C0, 0x116C9),
   (0x11730, 0x11739), (0x118E0, 0x118E9), (0x11950, 0x11959),
   (0x11C50, 0x11C59), (0x11D50, 0x11D59), (0x11DA0, 0x11DA9),
   (0x11F50, 0x11F59), (0x16A60, 0x16A69), (0x16AC0, 0x16AC9),
   (0x16B50, 0x16B59),
   (0x1D7CE, 0x1D7FF), (0x1E140, 0x1E149), (0x1E2F0, 0x1E2F9),
   (0x1E4F0, 0x1E4F9), (0x1E950, 0x1E959), (0x1FBF0, 0x1FBF9)]

/-- The ASCII decimal digit test in the style of the Go sources
(strconv's digit checks, and unicode.IsDigit's fast path). -/
def isDecDigit (c : Char) : Bool := '0' ≤ c && c ≤ '9'

/-- Go unicode.IsDigit: the ASCII range test below MaxLatin1, the Nd table
above it. -/
def goIsDigit (c : Char) : Bool :=
  if c.toNat ≤ 0xFF then isDecDigit c
  else ndRanges.any (fun p => decide (p.1 ≤ c.toNat ∧ c.toNat ≤ p.2))

/-- Decimal value of a list of ASCII digits (most significant first). -/
def decValue (ds : List Char) : Nat :=
  ds.foldl (fun a c => a * 10 + (c.toNat - '0'.toNat)) 0

/-- Digit-run handling of strconv.ParseInt(s, 10, 64) after the sign has
been stripped: one or more ASCII decimal digits, value within the signed
64-bit range. -/
def parseIntCore (neg : Bool) (ds : List Char) : Option Int :=
  if ds ≠ [] ∧ ds.all isDecDigit then
    if neg then (if decValue ds ≤ pow2 63 then some (-(decValue ds : Int)) else none)
    else (if decValue ds < pow2 63 then some ((decValue ds : Int)) else none)
  else none

/-- Model of Go strconv.ParseInt(s, 10, 64): optional sign, one or more ASCII
decimal digits, value within the signed 64-bit range; none on any failure
(syntax error or range error, both non-nil errors in Go). -/
def parseInt64 (s : List Char) : Option Int :=
  match s with
  | [] => none
  | c :: t =>
    if c = '-' then parseIntCore true t
    else if c = '+' then parseIntCore false t
    else parseIntCore false (c :: t)

/-- Hexadecimal digit value, upper or lower case, as strconv accepts. -/
def hexVal (c : Char) : Option Nat :=
  if '0' ≤ c ∧ c ≤ '9' then some (c.toNat - '0'.toNat)
  else if 'a' ≤ c ∧ c ≤ 'f' then some (c.toNat - 'a'.toNat + 10)
  else if 'A' ≤ c ∧ c ≤ 'F' then some (c.toNat - 'A'.toNat + 10)
  else none

/-- Hexadecimal value of a digit list, none if any char is not a hex digit. -/
def hexValue : List Char → Option Nat
  | [] => some 0
  | c :: cs =>
    match hexVal c, hexValue cs with
    | some d, some v => some (v * 16 + d)
    | _, _ => none

/-- Digit-run handling of strconv.ParseInt(s, 16, 32) after the sign has
been stripped: one or more hex digits, value within the signed 32-bit
range. -/
def parseHexCore (neg : Bool) (ds : List Char) : Option Int :=
  if ds = [] then none
  else
    match hexValue ds.reverse with
    | none => none
    | some v =>
      if neg then (if v ≤ pow2 31 then some (-(v : Int)) else none)
      else (if v < pow2 31 then some (v : Int) else none)

/-- Model of Go strconv.ParseInt(s, 16, 32): optional sign, one or more hex
digits, value within the signed 32-bit range. -/
def parseHex32 (s : List Char) : Option Int :=
  match s with
  | [] => none
  | c :: t =>
    if c = '-' then parseHexCore true t
    else if c = '+' then parseHexCore false t
    else parseHexCore false (c :: t)

/-- Model of Go strings.Builder.WriteRune / utf8.EncodeRune: an out-of-range
or surrogate rune value is replaced by U+FFFD (utf8.RuneError); a valid
Unicode scalar value is written as itself. -/
def goWriteRune (n : Int) : Char :=
  if 0 ≤ n ∧ Nat.isValidChar n.toNat then Char.ofNat n.toNat else '�'

/-- Split off the leading run of ASCII digits. -/
def spanDigits (s : List Char) : List Char × List Char :=
  (s.takeWhile isDecDigit, s.dropWhile isDecDigit)

/-- Exact value of a decimal floating literal as a fraction: optional sign,
digits with an optional decimal point (at least one digit overall), optional
exponent part.  none on a syntax error.  This covers the decimal forms Go
strconv.ParseFloat accepts for the strings that reach it from the number
automaton (hex floats and inf/nan spellings can never reach it). -/
def parseFloatCore (s : List Char) : Option Frac :=
  let p : Bool × List Char :=
    match s with
    | '-' :: t => (true, t)
    | '+' :: t => (false, t)
    | t => (false, t)
  let ip := spanDigits p.2
  let fp : List Char × List Char :=
    match ip.2 with
    | '.' :: t => spanDigits t
    | t => ([], t)
  if ip.1 = [] ∧ fp.1 = [] then none
  else
    let mag : Int := decValue (ip.1 ++ fp.1)
    let mant : Frac := ⟨if p.1 then -mag else mag, pow10 fp.1.length⟩
    match fp.2 with
    | [] => some mant
    | 'e' :: t =>
      let ep : Int × List Char :=
        match t with
        | '-' :: u => (-1, u)
        | '+' :: u => (1, u)
        | u => (1, u)
      let ed := spanDigits ep.2
      if ed.1 = [] ∨ ed.2 ≠ [] then none
      else some (mant.mulPow10 (ep.1 * (decValue ed.1 : Int)))
    | 'E' :: t =>
      let ep : Int × List Char :=
        match t with
        | '-' :: u => (-1, u)
        | '+' :: u => (1, u)
        | u => (1, u)
      let ed := spanDigits ep.2
      if ed.1 = [] ∨ ed.2 ≠ [] then none
      else some (mant.mulPow10 (ep.1 * (decValue ed.1 : Int)))
    | _ => none

/-- Model of Go strconv.ParseFloat(s, 64): exact decimal value, correctly
rounded to binary64; none on syntax error or on a range error (Go returns a
non-nil error in both cases, which convertToNumber treats alike). -/
def parseFloat64 (s : List Char) : Option F64 :=
  (parseFloatCore s).bind roundFloat64

/-- Fuel-driven decimal digit accumulation, least significant digit pushed
first so the result lists the most significant digit first. -/
def digitsOfNatF : Nat → Nat → List Char → List Char
  | 0, n, acc => Char.ofNat ('0'.toNat + n % 10) :: acc
  | fuel + 1, n, acc =>
    if n < 10 then Char.ofNat ('0'.toNat + n) :: acc
    else digitsOfNatF fuel (n / 10) (Char.ofNat ('0'.toNat + n % 10) :: acc)

/-- Decimal digits of a natural number, most significant first (fuel n is
always sufficient). -/
def digitsOfNat (n : Nat) : List Char := digitsOfNatF n n []

/-- Model of Go strconv.FormatInt(n, 10). -/
def formatInt (n : Int) : List Char :=
  if n < 0 then '-' :: digitsOfNat n.natAbs else digitsOfNat n.natAbs

/-- Positional rendering of m * 10^t (m a natural number) in the style of
FormatFloat's 'f' format: no exponent, a decimal point only when t < 0. -/
def renderPositional (m : Nat) (t : Int) : List Char :=
  if 0 ≤ t then digitsOfNat m ++ List.replicate t.toNat '0'
  else
    let d := pow10 (-t).toNat
    let frac := digitsOfNat (m % d)
    digitsOfNat (m / d) ++ '.' ::
      (List.replicate ((-t).toNat - frac.length) '0' ++ frac)

/-- Search for the shortest round-tripping decimal for the binary64 value ax
(of exact value y, floor log10 y = k): precisions of p and up to fuel more
significant digits, the candidate at each precision being y correctly
rounded to that many digits; when fuel runs out (at 17 significant digits,
which always round-trip for binary64) render unconditionally. -/
def formatLoop (y : Frac) (ax : F64) (k : Int) : Nat → Nat → List Char
  | 0, p =>
    let t := k - (p : Int) + 1
    renderPositional (Frac.roundHalfEven (y.mulPow10 (-t))).toNat t
  | fuel + 1, p =>
    let t := k - (p : Int) + 1
    let m := Frac.roundHalfEven (y.mulPow10 (-t))
    if roundFloat64 (Frac.mulPow10 ⟨m, 1⟩ t) = some ax then
      renderPositional m.toNat t
    else formatLoop y ax k fuel (p + 1)

/-- Model of Go strconv.FormatFloat(x, 'f', -1, 64): the shortest decimal
digit string, rendered without an exponent, that parses back to the same
binary64 value. -/
def formatFloatShortest (x : F64) : List Char :=
  if x.m = 0 then ['0']
  else
    let ax : F64 := ⟨(x.m.natAbs : Int), x.e⟩
    let y : Frac := ax.toFrac
    let k := Frac.log10 y
    if x.m < 0 then '-' :: formatLoop y ax k 16 1 else formatLoop y ax k 16 1

/-- The literal strings of unmarshal.go. -/
def TRUE_CHARS : List Char := ['t', 'r', 'u', 'e']

/-- FALSE_STRING as a rune list. -/
def FALSE_CHARS : List Char := ['f', 'a', 'l', 's', 'e']

/-- NULL_STRING as a rune list. -/
def NULL_CHARS : List Char := ['n', 'u', 'l', 'l']

/-- UnmarshalWhitespace: consume runes while they are JSON whitespace,
pushing back the first rune that is not (or stopping at end of stream);
in a pure model it never fails. -/
def unmarshalWhitespace (s : List Char) : List Char :=
  s.dropWhile isJsonWhitespace

/-- The loop of UnmarshalString.  First argument is the backslash flag,
second the builder contents, third the stream after the opening quote.
Rune values decoded from hex escapes pass through goWriteRune, mirroring
strings.Builder.WriteRune. -/
def stringLoop : Bool → List Char → List Char → Except JErr (List Char × List Char)
  | _, _, [] => .error .readRuneFail
  | true, acc, r :: rest =>
    if r = '"' then stringLoop false (acc ++ ['"']) rest
    else if r = '\\' then stringLoop false (acc ++ ['\\']) rest
    else if r = '/' then stringLoop false (acc ++ ['/']) rest
    else if r = 'b' then stringLoop false (acc ++ ['\x08']) rest
    else if r = 'f' then stringLoop false (acc ++ ['\x0C']) rest
    else if r = 'n' then stringLoop false (acc ++ ['\n']) rest
    else if r = 'r' then stringLoop false (acc ++ ['\x0D']) rest
    else if r = 't' then stringLoop false (acc ++ ['\t']) rest
    else if r = 'u' then
      -- convertHexToUnicode: read exactly 4 runes and parse them base 16;
      -- a short read or a parse failure are both collapsed by UnmarshalString
      -- into the same fresh error.
      match rest with
      | h1 :: h2 :: h3 :: h4 :: rest2 =>
        match parseHex32 [h1, h2, h3, h4] with
        | some n => stringLoop false (acc ++ [goWriteRune n]) rest2
        | none => .error .unicodeConvFail
      | _ => .error .unicodeConvFail
    else .error (.invalidEscape r)
  | false, acc, r :: rest =>
    if r = '\\' then stringLoop true acc rest
    else if r = '"' then .ok (acc, rest)
    else stringLoop false (acc ++ [r]) rest

/-- UnmarshalString: require an opening double quote, then run the loop. -/
def unmarshalString (s : List Char) : Except JErr (List Char × List Char) :=
  match s with
  | [] => .error .readRuneFail
  | r :: rest =>
    if r = '"' then stringLoop false [] rest
    else .error (.stringNoQuote r)

/-- UnmarshalTrue: read 4 runes and compare with "true". -/
def unmarshalTrue (s : List Char) : Except JErr (Value × List Char) :=
  let v := s.take 4
  if v.length ≠ 4 then .error (.literalShortRead v.length)
  else if v = TRUE_CHARS then .ok (.bool true, s.drop 4)
  else .error (.literalMismatch v)

/-- UnmarshalFalse: read 5 runes and compare with "false". -/
def unmarshalFalse (s : List Char) : Except JErr (Value × List Char) :=
  let v := s.take 5
  if v.length ≠ 5 then .error (.literalShortRead v.length)
  else if v = FALSE_CHARS then .ok (.bool false, s.drop 5)
  else .error (.literalMismatch v)

/-- UnmarshalNull: read 4 runes and compare with "null". -/
def unmarshalNull (s : List Char) : Except JErr (Value × List Char) :=
  let v := s.take 4
  if v.length ≠ 4 then .error (.literalShortRead v.length)
  else if v = NULL_CHARS then .ok (.null, s.drop 4)
  else .error (.literalMismatch v)

/-- The 10-state automaton loop of UnmarshalNumber.  Arguments: current
state, accumulated buffer, remaining stream.  A valid end returns the
buffer and pushes the terminating rune back; end of stream in a
non-accepting state appends the zero rune to the buffer exactly as the Go
loop writes the zero value returned by the failed ReadRune. -/
def numberLoop : Nat → List Char → List Char → Except JErr (List Char × List Char)
  | state, buf, [] =>
    if state = 2 ∨ state = 3 ∨ state = 4 ∨ state = 6 ∨ state = 9 then .ok (buf, [])
    else .error (.invalidNumberChar (buf ++ [Char.ofNat 0]))
  | state, buf, r :: rest =>
    if state = 0 then
      if r = '-' then numberLoop 1 (buf ++ [r]) rest
      else if r = '0' then numberLoop 2 (buf ++ [r]) rest
      else if goIsDigit r then numberLoop 3 (buf ++ [r]) rest
      else .error (.invalidNumberChar (buf ++ [r]))
    else if state = 1 then
      if r = '0' then numberLoop 2 (buf ++ [r]) rest
      else if goIsDigit r then numberLoop 3 (buf ++ [r]) rest
      else .error (.invalidNumberChar (buf ++ [r]))
    else if state = 2 then
      if r = '.' then numberLoop 5 (buf ++ [r]) rest
      else if r = 'e' ∨ r = 'E' then numberLoop 7 (buf ++ [r]) rest
      else .ok (buf, r :: rest)
    else if state = 3 ∨ state = 4 then
      if goIsDigit r then numberLoop 4 (buf ++ [r]) rest
      else if r = '.' then numberLoop 5 (buf ++ [r]) rest
      else if r = 'e' ∨ r = 'E' then numberLoop 7 (buf ++ [r]) rest
      else .ok (buf, r :: rest)
    else if state = 5 then
      if goIsDigit r then numberLoop 6 (buf ++ [r]) rest
      else .error (.invalidNumberChar (buf ++ [r]))
    else if state = 6 then
      if goIsDigit r then numberLoop 6 (buf ++ [r]) rest
      else if r = 'e' ∨ r = 'E' then numberLoop 7 (buf ++ [r]) rest
      else .ok (buf, r :: rest)
    else if state = 7 then
      if r = '-' ∨ r = '+' then numberLoop 8 (buf ++ [r]) rest
      else if goIsDigit r then numberLoop 9 (buf ++ [r]) rest
      else .error (.invalidNumberChar (buf ++ [r]))
    else if state = 8 then
      if goIsDigit r then numberLoop 9 (buf ++ [r]) rest
      else .error (.invalidNumberChar (buf ++ [r]))
    else if state = 9 then
      if goIsDigit r then numberLoop 9 (buf ++ [r]) rest
      else .ok (buf, r :: rest)
    else
      -- unreachable state values: the Go switch matches nothing and the loop
      -- keeps reading (the rune is still written to the buffer)
      numberLoop state (buf ++ [r]) rest

/-- convertToNumber: a buffer containing '.', 'e' or 'E' goes through
ParseFloat, anything else through ParseInt. -/
def convertToNumber (buf : List Char) : Except JErr Value :=
  if buf.any (fun c => c == '.' || c == 'e' || c == 'E') then
    match parseFloat64 buf with
    | some q => .ok (.float q)
    | none => .error (.floatConvFail buf)
  else
    match parseInt64 buf with
    | some n => .ok (.integer n)
    | none => .error (.intConvFail buf)

/-- UnmarshalNumber: run the automaton from state 0 with an empty buffer,
then convert the accepted buffer. -/
def unmarshalNumber (s : List Char) : Except JErr (Value × List Char) :=
  match numberLoop 0 [] s with
  | .error e => .error e
  | .ok (buf, rest) =>
    match convertToNumber buf with
    | .error e => .error e
    | .ok v => .ok (v, rest)

/-- Go map assignment object[key] = value: overwrite the entry when the key
is present, append it otherwise (iteration order of the Go map is
unspecified; the association list fixes first-insertion order, which no
claim relies on). -/
def mapInsert : List (List Char × Value) → List Char → Value → List (List Char × Value)
  | [], key, v => [(key, v)]
  | (k, w) :: es, key, v =>
    if k = key then (k, v) :: es else (k, w) :: mapInsert es key v

mutual

/-- UnmarshalValue: skip leading whitespace, peek one rune, dispatch, then
skip trailing whitespace.  The fuel argument bounds the recursion depth of
the mutually recursive container productions; the top-level entry point
passes more than enough. -/
def unmarshalValue : Nat → List Char → Except JErr (Value × List Char)
  | 0, _ => .error .outOfFuel
  | f + 1, s =>
    match unmarshalWhitespace s with
    | [] => .error .readRuneFail
    | r :: rest =>
      match
        (if r = '"' then
          match unmarshalString (r :: rest) with
          | .error e => .error e
          | .ok (cs, rest2) => .ok (Value.string cs, rest2)
        else if goIsDigit r ∨ r = '-' then unmarshalNumber (r :: rest)
        else if r = '{' then
          match objectLoop f 0 [] [] (r :: rest) with
          | .error e => .error e
          | .ok (es, rest2) => .ok (Value.object es, rest2)
        else if r = '[' then
          match arrayLoop f 0 [] (r :: rest) with
          | .error e => .error e
          | .ok (vs, rest2) => .ok (Value.array vs, rest2)
        else if r = 't' then unmarshalTrue (r :: rest)
        else if r = 'f' then unmarshalFalse (r :: rest)
        else if r = 'n' then unmarshalNull (r :: rest)
        else .error (.unexpectedChar r)) with
      | .error e => .error e
      | .ok (v, rest2) => .ok (v, unmarshalWhitespace rest2)

/-- The state loop of UnmarshalObject.  States as in the source: 0 start,
1 after the opening brace, 2 after a key, 3 after the colon, 4 after a
value, 5 after a comma.  Two behaviours of the source are preserved
faithfully: in state 3 the rune read at the top of the loop is discarded
before UnmarshalValue is called, and in state 4 a rune that is neither a
closing brace nor a comma is silently skipped. -/
def objectLoop : Nat → Nat → List Char → List (List Char × Value) → List Char →
    Except JErr (List (List Char × Value) × List Char)
  | 0, _, _, _, _ => .error .outOfFuel
  | f + 1, state, key, obj, s =>
    match s with
    | [] => .error .readRuneFail
    | r :: rest =>
      if state = 0 then
        if r = '{' then objectLoop f 1 key obj rest
        else .error .objectNoOpen
      else if state = 1 ∨ state = 5 then
        if isJsonWhitespace r then objectLoop f state key obj rest
        else if state = 1 ∧ r = '}' then .ok (obj, rest)
        else
          match unmarshalString (r :: rest) with
          | .error e => .error (.objectKeyFail e)
          | .ok (k, rest2) => objectLoop f 2 k obj rest2
      else if state = 2 then
        if isJsonWhitespace r then objectLoop f 2 key obj rest
        else if r = ':' then objectLoop f 3 key obj rest
        else .error (.objectNoColon key)
      else if state = 3 then
        match unmarshalValue f rest with
        | .error _ => .error (.objectValueFail key)
        | .ok (v, rest2) => objectLoop f 4 key (mapInsert obj key v) rest2
      else if state = 4 then
        if r = '}' then .ok (obj, rest)
        else if r = ',' then objectLoop f 5 key obj rest
        else objectLoop f 4 key obj rest
      else
        -- unreachable state values: no branch of the Go if-chain fires and
        -- the loop keeps reading
        objectLoop f state key obj rest

/-- The state loop of UnmarshalArray.  States as in the source: 0 start,
1 after the opening bracket or a comma, 2 after a value.  State 1 accepts a
closing bracket regardless of how it was reached, so a trailing comma before
the closing bracket is accepted. -/
def arrayLoop : Nat → Nat → List Value → List Char →
    Except JErr (List Value × List Char)
  | 0, _, _, _ => .error .outOfFuel
  | f + 1, state, values, s =>
    match s with
    | [] => .error .readRuneFail
    | r :: rest =>
      if state = 0 then
        if r = '[' then arrayLoop f 1 values rest
        else .error .arrayNoOpen
      else if state = 1 then
        if isJsonWhitespace r then arrayLoop f 1 values rest
        else if r = ']' then .ok (values, rest)
        else
          match unmarshalValue f (r :: rest) with
          | .error e => .error (.arrayValueFail e)
          | .ok (v, rest2) => arrayLoop f 2 (values ++ [v]) rest2
      else if state = 2 then
        if r = ',' then arrayLoop f 1 values rest
        else if r = ']' then .ok (values, rest)
        else .error .arrayNoCommaOrBracket
      else
        arrayLoop f state values rest

end

/-- The decoder entry point: UnmarshalValue on a fresh reader over the text.
The fuel is amply sufficient for every input of the given length. -/
def decode (s : List Char) : Except JErr Value :=
  match unmarshalValue (4 * s.length + 4) s with
  | .error e => .error e
  | .ok (v, _) => .ok v

/-- The per-rune escaping switch of MarshalString. -/
def escGo (c : Char) : List Char :=
  if c = '"' then ['\\', '"']
  else if c = '\\' then ['\\', '\\']
  else if c = '\x08' then ['\\', 'b']
  else if c = '\x0C' then ['\\', 'f']
  else if c = '\n' then ['\\', 'n']
  else if c = '\x0D' then ['\\', 'r']
  else if c = '\t' then ['\\', 't']
  else [c]

/-- The writing loop of MarshalString followed by the closing quote. -/
def marshalStringLoop : List Char → List Char
  | [] => ['"']
  | c :: cs => escGo c ++ marshalStringLoop cs

/-- MarshalString: opening quote, escaped runes, closing quote. -/
def marshalString (s : List Char) : List Char :=
  '"' :: marshalStringLoop s

mutual

/-- MarshalValue: the reflection type switch of marshal.go restated over the
closed Value variant (pure writer: the byte-sink errors of bufio cannot occur).
Object entries are written in the association-list order, one of the
unspecified Go map iteration orders. -/
def marshalValue : Value → List Char
  | .null => NULL_CHARS
  | .bool true => TRUE_CHARS
  | .bool false => FALSE_CHARS
  | .integer n => formatInt n
  | .float q => formatFloatShortest q
  | .string cs => marshalString cs
  | .array vs => '[' :: (marshalElems vs ++ [']'])
  | .object es => '{' :: (marshalEntries es ++ ['}'])

/-- The element loop of MarshalArray: a comma after every element but the
last. -/
def marshalElems : List Value → List Char
  | [] => []
  | [v] => marshalValue v
  | v :: v' :: vs => marshalValue v ++ ',' :: marshalElems (v' :: vs)

/-- The entry loop of MarshalObject: key, colon, value, a comma after every
entry but the last. -/
def marshalEntries : List (List Char × Value) → List Char
  | [] => []
  | [(k, v)] => marshalString k ++ ':' :: marshalValue v
  | (k, v) :: e :: es => marshalString k ++ ':' :: marshalValue v ++ ',' :: marshalEntries (e :: es)

end

mutual

/-- Values built only from the variants the Go decoder can round-trip
structurally: no Object, no Float, and every integer within the int64 range
(in Go the integer variant is an int64, so the bound is implicit there). -/
def wfValue : Value → Bool
  | .null => true
  | .bool _ => true
  | .integer n => decide (-((pow2 63 : Nat) : Int) ≤ n ∧ n < ((pow2 63 : Nat) : Int))
  | .float _ => false
  | .string _ => true
  | .array vs => wfList vs
  | .object _ => false

/-- wfValue on every element of a list. -/
def wfList : List Value → Bool
  | [] => true
  | v :: vs => wfValue v && wfList vs

end

/-- A remainder list whose head (when there is one) cannot extend a number
token and is not JSON whitespace, so that a preceding number scan stops
exactly there and the trailing whitespace skip leaves it in place. -/
def goodRest : List Char → Prop
  | [] => True
  | c :: _ => isJsonWhitespace c = false ∧ goIsDigit c = false
      ∧ c ≠ '.' ∧ c ≠ 'e' ∧ c ≠ 'E'

mutual

/-- Fuel consumed by unmarshalValue on the encoding of a (well-formed)
value: one tick for the value dispatch, plus the array loop's account for
container values.  Used by the round-trip proof. -/
def cost : Value → Nat
  | .array vs => 3 + costList vs
  | _ => 1

/-- Fuel consumed by the array loop from state 1 while it consumes the
encoded elements followed by the closing bracket. -/
def costList : List Value → Nat
  | [] => 1
  | v :: vs => 2 + cost v + costList vs

end

/-
Theorems.
-/

/-- Characters are distinguished by their code points. -/
theorem char_ne_of_toNat {a b : Char} (h : a.toNat ≠ b.toNat) : a ≠ b :=
  fun he => h (he ▸ rfl)

/-- The code point of the character zero. -/
theorem toNat_zero_char : ('0').toNat = 48 := rfl

/-- Code-point bounds of an ASCII decimal digit. -/
theorem isDecDigit_bounds {c : Char} (h : isDecDigit c = true) :
    48 ≤ c.toNat ∧ c.toNat ≤ 57 := by
  simp only [isDecDigit, Bool.and_eq_true, decide_eq_true_eq] at h
  exact ⟨h.1, h.2⟩

/-- An ASCII decimal digit passes the Unicode digit test of the dispatch. -/
theorem isDecDigit_goIsDigit {c : Char} (h : isDecDigit c = true) :
    goIsDigit c = true := by
  have hb := isDecDigit_bounds h
  rw [goIsDigit, if_pos (by omega)]
  exact h

/-- An ASCII decimal digit is not JSON whitespace. -/
theorem isDecDigit_not_ws {c : Char} (h : isDecDigit c = true) :
    isJsonWhitespace c = false := by
  have hb := isDecDigit_bounds h
  simp only [isJsonWhitespace, Bool.or_eq_false_iff, beq_eq_false_iff_ne, ne_eq]
  refine ⟨⟨⟨?_, ?_⟩, ?_⟩, ?_⟩
  · exact char_ne_of_toNat (show c.toNat ≠ 32 by omega)
  · exact char_ne_of_toNat (show c.toNat ≠ 10 by omega)
  · exact char_ne_of_toNat (show c.toNat ≠ 13 by omega)
  · exact char_ne_of_toNat (show c.toNat ≠ 9 by omega)

/-- digitsOfNatF only conses onto the accumulator. -/
theorem digitsOfNatF_append (fuel : Nat) :
    ∀ n acc, digitsOfNatF fuel n acc = digitsOfNatF fuel n [] ++ acc := by
  induction fuel with
  | zero => intro n acc; simp [digitsOfNatF]
  | succ f ih =>
    intro n acc
    by_cases h : n < 10
    · simp [digitsOfNatF, h]
    · rw [digitsOfNatF, digitsOfNatF, if_neg h, if_neg h,
        ih (n / 10) (Char.ofNat ('0'.toNat + n % 10) :: acc),
        ih (n / 10) [Char.ofNat ('0'.toNat + n % 10)]]
      simp

/-- The fuel of digitsOfNatF is irrelevant once it covers the number. -/
theorem digitsOfNatF_irrel :
    ∀ f1 f2 n, n ≤ f1 → n ≤ f2 → digitsOfNatF f1 n [] = digitsOfNatF f2 n [] := by
  intro f1
  induction f1 with
  | zero =>
    intro f2 n h1 _
    have hn : n = 0 := by omega
    subst hn
    cases f2 with
    | zero => rfl
    | succ g => simp [digitsOfNatF]
  | succ f ih =>
    intro f2 n h1 h2
    by_cases h : n < 10
    · cases f2 with
      | zero =>
        have hn : n = 0 := by omega
        subst hn
        simp [digitsOfNatF]
      | succ g => simp [digitsOfNatF, h]
    · cases f2 with
      | zero => omega
      | succ g =>
        rw [digitsOfNatF, digitsOfNatF, if_neg h, if_neg h,
          digitsOfNatF_append f, digitsOfNatF_append g]
        have hd : n / 10 < n := Nat.div_lt_self (by omega) (by omega)
        rw [ih g (n / 10) (by omega) (by omega)]

/-- Unfolding step of digitsOfNat for numbers of two or more digits. -/
theorem digitsOfNat_step {n : Nat} (h : 10 ≤ n) :
    digitsOfNat n = digitsOfNat (n / 10) ++ [Char.ofNat ('0'.toNat + n % 10)] := by
  have hd : n / 10 < n := Nat.div_lt_self (by omega) (by omega)
  show digitsOfNatF n n [] = _
  rw [show n = (n - 1) + 1 from by omega]
  rw [digitsOfNatF, if_neg (by omega), digitsOfNatF_append]
  rw [show (n - 1 + 1) = n from by omega]
  rw [digitsOfNatF_irrel (n - 1) (n / 10) (n / 10) (by omega) (by omega)]
  rfl

/-- digitsOfNat on a single digit. -/
theorem digitsOfNat_lt {n : Nat} (h : n < 10) :
    digitsOfNat n = [Char.ofNat ('0'.toNat + n)] := by
  cases n with
  | zero => rfl
  | succ k => simp [digitsOfNat, digitsOfNatF, h]

/-- The code point of an ASCII character built by Char.ofNat. -/
theorem toNat_ofNat_ascii {m : Nat} (h : m < 128) : (Char.ofNat m).toNat = m := by
  have hv : m.isValidChar := Or.inl (by omega)
  simp only [Char.ofNat, Char.ofNatAux, hv, dite_true, Char.toNat, dif_pos]
  rfl

/-- decValue across a final digit. -/
theorem decValue_append (xs : List Char) (c : Char) :
    decValue (xs ++ [c]) = 10 * decValue xs + (c.toNat - '0'.toNat) := by
  simp [decValue, List.foldl_append]
  omega

/-- The digits of a natural number are decimal digits, are nonempty, and
evaluate back to it. -/
theorem digitsOfNat_spec (n : Nat) :
    (digitsOfNat n).all isDecDigit = true ∧ decValue (digitsOfNat n) = n
    ∧ digitsOfNat n ≠ [] := by
  induction n using Nat.strong_induction_on with
  | _ n ih =>
    by_cases h : n < 10
    · rw [digitsOfNat_lt h]
      have ht : (Char.ofNat ('0'.toNat + n)).toNat = '0'.toNat + n :=
        toNat_ofNat_ascii (by rw [toNat_zero_char]; omega)
      refine ⟨?_, ?_, by simp⟩
      · simp only [List.all_cons, List.all_nil, Bool.and_true, isDecDigit,
          Bool.and_eq_true, decide_eq_true_eq]
        constructor
        · show (48 : Nat) ≤ (Char.ofNat ('0'.toNat + n)).toNat
          rw [ht]
          show (48 : Nat) ≤ 48 + n
          omega
        · show (Char.ofNat ('0'.toNat + n)).toNat ≤ (57 : Nat)
          rw [ht]
          show (48 : Nat) + n ≤ 57
          omega
      · simp only [decValue, List.foldl_cons, List.foldl_nil, ht]
        show 0 * 10 + (48 + n - 48) = n
        omega
    · have hd : n / 10 < n := Nat.div_lt_self (by omega) (by omega)
      obtain ⟨ha, hv, hne⟩ := ih (n / 10) hd
      rw [digitsOfNat_step (by omega)]
      have ht : (Char.ofNat ('0'.toNat + n % 10)).toNat = '0'.toNat + n % 10 :=
        toNat_ofNat_ascii (by rw [toNat_zero_char]; omega)
      refine ⟨?_, ?_, by simp⟩
      · simp only [List.all_append, ha, List.all_cons, List.all_nil,
          Bool.true_and, Bool.and_true, isDecDigit, Bool.and_eq_true,
          decide_eq_true_eq]
        constructor
        · show (48 : Nat) ≤ (Char.ofNat ('0'.toNat + n % 10)).toNat
          rw [ht]
          show (48 : Nat) ≤ 48 + n % 10
          omega
        · show (Char.ofNat ('0'.toNat + n % 10)).toNat ≤ (57 : Nat)
          rw [ht]
          show (48 : Nat) + n % 10 ≤ 57
          omega
      · rw [decValue_append, hv, ht]
        show 10 * (n / 10) + (48 + n % 10 - 48) = n
        omega

/-- The digit list of a positive number starts with a nonzero digit. -/
theorem digitsOfNat_cons (n : Nat) (h : 1 ≤ n) :
    ∃ d ds, digitsOfNat n = d :: ds ∧ d ≠ '0' := by
  induction n using Nat.strong_induction_on with
  | _ n ih =>
    by_cases hlt : n < 10
    · refine ⟨Char.ofNat ('0'.toNat + n), [], digitsOfNat_lt hlt, ?_⟩
      apply char_ne_of_toNat
      rw [toNat_ofNat_ascii (by rw [toNat_zero_char]; omega), toNat_zero_char]
      show 48 + n ≠ ('0').toNat
      rw [toNat_zero_char]
      omega
    · have hd : n / 10 < n := Nat.div_lt_self (by omega) (by omega)
      obtain ⟨d, ds, heq, hne⟩ := ih (n / 10) hd (by omega)
      exact ⟨d, ds ++ [Char.ofNat ('0'.toNat + n % 10)],
        by rw [digitsOfNat_step (by omega), heq]; rfl, hne⟩


/-- A goodRest remainder is left in place by the whitespace skip. -/
theorem unmarshalWhitespace_goodRest {rest : List Char} (h : goodRest rest) :
    unmarshalWhitespace rest = rest := by
  cases rest with
  | nil => rfl
  | cons c r =>
    obtain ⟨h1, -⟩ := h
    simp [unmarshalWhitespace, List.dropWhile, h1]

/-- ParseInt round-trips FormatInt for every int64. -/
theorem parseInt64_formatInt {n : Int}
    (h1 : -((pow2 63 : Nat) : Int) ≤ n) (h2 : n < ((pow2 63 : Nat) : Int)) :
    parseInt64 (formatInt n) = some n := by
  obtain ⟨hall, hval, hne⟩ := digitsOfNat_spec n.natAbs
  by_cases hn : n < 0
  · rw [formatInt, if_pos hn]
    have e1 : parseInt64 ('-' :: digitsOfNat n.natAbs)
        = parseIntCore true (digitsOfNat n.natAbs) := by
      simp [parseInt64]
    rw [e1, parseIntCore, if_pos ⟨hne, hall⟩, if_pos rfl,
      if_pos (show decValue (digitsOfNat n.natAbs) ≤ pow2 63 by rw [hval]; omega),
      hval]
    congr 1
    omega
  · rw [formatInt, if_neg hn]
    cases heq : digitsOfNat n.natAbs with
    | nil => exact absurd heq hne
    | cons d ds =>
      rw [heq] at hall hval
      have hd : isDecDigit d = true := by
        simp only [List.all_cons, Bool.and_eq_true] at hall
        exact hall.1
      have hb := isDecDigit_bounds hd
      have hm : d ≠ '-' :=
        @char_ne_of_toNat d '-' (by rw [show ('-' : Char).toNat = 45 from rfl]; omega)
      have hp : d ≠ '+' :=
        @char_ne_of_toNat d '+' (by rw [show ('+' : Char).toNat = 43 from rfl]; omega)
      have e1 : parseInt64 (d :: ds) = parseIntCore false (d :: ds) := by
        simp only [parseInt64]
        rw [if_neg hm, if_neg hp]
      rw [e1, parseIntCore, if_pos ⟨List.cons_ne_nil d ds, hall⟩,
        if_neg (fun h => Bool.noConfusion h),
        if_pos (show decValue (d :: ds) < pow2 63 by rw [hval]; omega), hval]
      congr 1
      omega

/-- The number automaton consumes a run of decimal digits from its
integer-digit states and stops cleanly at a goodRest remainder. -/
theorem numberLoop_digits (ds : List Char) :
    ∀ buf rest st, ds.all isDecDigit = true → (st = 3 ∨ st = 4) → goodRest rest →
    numberLoop st buf (ds ++ rest) = .ok (buf ++ ds, rest) := by
  induction ds with
  | nil =>
    intro buf rest st hall hst hrest
    simp only [List.nil_append, List.append_nil]
    cases rest with
    | nil => rcases hst with h | h <;> subst h <;> simp [numberLoop]
    | cons c r =>
      obtain ⟨hws, hdg, hdot, he, hE⟩ := hrest
      rcases hst with h | h <;> subst h <;>
        simp [numberLoop, hdg, hdot, he, hE]
  | cons d ds ih =>
    intro buf rest st hall hst hrest
    simp only [List.all_cons, Bool.and_eq_true] at hall
    have hdg : goIsDigit d = true := isDecDigit_goIsDigit hall.1
    have step : numberLoop st buf (d :: (ds ++ rest))
        = numberLoop 4 (buf ++ [d]) (ds ++ rest) := by
      rcases hst with h | h <;> subst h <;> simp [numberLoop, hdg]
    rw [List.cons_append, step, ih (buf ++ [d]) rest 4 hall.2 (Or.inr rfl) hrest]
    simp

/-- No character of a FormatInt rendering triggers the float path of
convertToNumber. -/
theorem formatInt_any_false (n : Int) :
    ((formatInt n).any (fun c => c == '.' || c == 'e' || c == 'E')) = false := by
  obtain ⟨hall, -, -⟩ := digitsOfNat_spec n.natAbs
  rw [List.any_eq_false]
  intro c hc
  have hdig_or : isDecDigit c = true ∨ c = '-' := by
    rw [formatInt] at hc
    by_cases hn : n < 0
    · rw [if_pos hn] at hc
      rcases List.mem_cons.mp hc with h | h
      · right; exact h
      · left; exact (List.all_eq_true.mp hall) c h
    · rw [if_neg hn] at hc
      left; exact (List.all_eq_true.mp hall) c hc
  intro hcon
  simp only [Bool.or_eq_true, beq_iff_eq] at hcon
  rcases hdig_or with h | h
  · have hb := isDecDigit_bounds h
    rcases hcon with (h' | h') | h' <;> subst h' <;> exact absurd hb (by decide)
  · subst h
    rcases hcon with (h' | h') | h' <;> exact absurd h' (by decide)

/-- The number automaton accepts exactly the FormatInt rendering and the
conversion reproduces the integer. -/
theorem unmarshalNumber_formatInt {n : Int}
    (h1 : -((pow2 63 : Nat) : Int) ≤ n) (h2 : n < ((pow2 63 : Nat) : Int))
    {rest : List Char} (hrest : goodRest rest) :
    unmarshalNumber (formatInt n ++ rest) = .ok (.integer n, rest) := by
  have hloop : numberLoop 0 [] (formatInt n ++ rest) = .ok (formatInt n, rest) := by
    by_cases hn : n < 0
    · have hm : 1 ≤ n.natAbs := by omega
      obtain ⟨d, ds, heq, hd0⟩ := digitsOfNat_cons n.natAbs hm
      obtain ⟨hall, -, -⟩ := digitsOfNat_spec n.natAbs
      rw [heq] at hall
      simp only [List.all_cons, Bool.and_eq_true] at hall
      have hdg : goIsDigit d = true := isDecDigit_goIsDigit hall.1
      rw [formatInt, if_pos hn, heq]
      show numberLoop 0 [] ('-' :: (d :: (ds ++ rest))) = _
      have s1 : numberLoop 0 [] ('-' :: (d :: (ds ++ rest)))
          = numberLoop 1 ['-'] (d :: (ds ++ rest)) := by
        simp [numberLoop]
      have s2 : numberLoop 1 ['-'] (d :: (ds ++ rest))
          = numberLoop 3 ['-', d] (ds ++ rest) := by
        simp [numberLoop, hd0, hdg]
      rw [s1, s2, numberLoop_digits ds ['-', d] rest 3 hall.2 (Or.inl rfl) hrest]
      rfl
    · by_cases hm : n.natAbs = 0
      · rw [formatInt, if_neg hn, hm, digitsOfNat_lt (by omega)]
        show numberLoop 0 [] ('0' :: rest) = .ok (['0'], rest)
        have s1 : numberLoop 0 [] ('0' :: rest) = numberLoop 2 ['0'] rest := by
          simp [numberLoop]
        rw [s1]
        cases rest with
        | nil => simp [numberLoop]
        | cons c r =>
          obtain ⟨hws, hdg, hdot, he, hE⟩ := hrest
          simp [numberLoop, hdot, he, hE]
      · obtain ⟨d, ds, heq, hd0⟩ := digitsOfNat_cons n.natAbs (by omega)
        obtain ⟨hall, -, -⟩ := digitsOfNat_spec n.natAbs
        rw [heq] at hall
        simp only [List.all_cons, Bool.and_eq_true] at hall
        have hdg : goIsDigit d = true := isDecDigit_goIsDigit hall.1
        have hb := isDecDigit_bounds hall.1
        rw [formatInt, if_neg hn, heq]
        show numberLoop 0 [] (d :: (ds ++ rest)) = _
        have hm' : d ≠ '-' :=
          @char_ne_of_toNat d '-' (by rw [show ('-' : Char).toNat = 45 from rfl]; omega)
        have s1 : numberLoop 0 [] (d :: (ds ++ rest))
            = numberLoop 3 [d] (ds ++ rest) := by
          simp [numberLoop, hdg, hd0, hm']
        rw [s1, numberLoop_digits ds [d] rest 3 hall.2 (Or.inl rfl) hrest]
        rfl
  rw [unmarshalNumber, hloop]
  show (match convertToNumber (formatInt n) with
    | .error e => Except.error e
    | .ok v => Except.ok (v, rest)) = _
  rw [convertToNumber, if_neg (by rw [formatInt_any_false]; exact fun h => Bool.noConfusion h),
    parseInt64_formatInt h1 h2]

/-- String loop, ordinary mode, closing quote. -/
theorem stringLoop_false_quote (acc u : List Char) :
    stringLoop false acc ('"' :: u) = .ok (acc, u) := by
  rw [stringLoop.eq_def]; simp

/-- String loop, ordinary mode, backslash enters escape mode. -/
theorem stringLoop_false_backslash (acc u : List Char) :
    stringLoop false acc ('\\' :: u) = stringLoop true acc u := by
  rw [stringLoop.eq_def]; simp

/-- String loop, ordinary mode, any other rune is copied. -/
theorem stringLoop_false_other {c : Char} (h1 : c ≠ '\\') (h2 : c ≠ '"')
    (acc u : List Char) :
    stringLoop false acc (c :: u) = stringLoop false (acc ++ [c]) u := by
  rw [stringLoop.eq_def]; simp [h1, h2]

/-- String loop, escape mode, escaped quote. -/
theorem stringLoop_true_quote (acc u : List Char) :
    stringLoop true acc ('"' :: u) = stringLoop false (acc ++ ['"']) u := by
  rw [stringLoop.eq_def]; simp

/-- String loop, escape mode, escaped backslash. -/
theorem stringLoop_true_backslash (acc u : List Char) :
    stringLoop true acc ('\\' :: u) = stringLoop false (acc ++ ['\\']) u := by
  rw [stringLoop.eq_def]; simp

/-- String loop, escape mode, backspace escape. -/
theorem stringLoop_true_b (acc u : List Char) :
    stringLoop true acc ('b' :: u) = stringLoop false (acc ++ ['\x08']) u := by
  rw [stringLoop.eq_def]; simp

/-- String loop, escape mode, form feed escape. -/
theorem stringLoop_true_f (acc u : List Char) :
    stringLoop true acc ('f' :: u) = stringLoop false (acc ++ ['\x0C']) u := by
  rw [stringLoop.eq_def]; simp

/-- String loop, escape mode, newline escape. -/
theorem stringLoop_true_n (acc u : List Char) :
    stringLoop true acc ('n' :: u) = stringLoop false (acc ++ ['\n']) u := by
  rw [stringLoop.eq_def]; simp

/-- String loop, escape mode, carriage return escape. -/
theorem stringLoop_true_r (acc u : List Char) :
    stringLoop true acc ('r' :: u) = stringLoop false (acc ++ ['\x0D']) u := by
  rw [stringLoop.eq_def]; simp

/-- String loop, escape mode, tab escape. -/
theorem stringLoop_true_tab (acc u : List Char) :
    stringLoop true acc ('t' :: u) = stringLoop false (acc ++ ['\t']) u := by
  rw [stringLoop.eq_def]; simp

/-- The string production undoes the per-rune escaping of MarshalString,
stopping at the closing quote. -/
theorem stringLoop_marshal (s : List Char) :
    ∀ acc rest, stringLoop false acc (s.flatMap escGo ++ ('"' :: rest))
      = .ok (acc ++ s, rest) := by
  induction s with
  | nil =>
    intro acc rest
    show stringLoop false acc ('"' :: rest) = .ok (acc ++ [], rest)
    rw [stringLoop_false_quote]
    simp
  | cons c cs ih =>
    intro acc rest
    by_cases h1 : c = '"'
    · subst h1
      show stringLoop false acc ('\\' :: '"' :: (cs.flatMap escGo ++ '"' :: rest)) = _
      rw [stringLoop_false_backslash, stringLoop_true_quote, ih]
      simp
    · by_cases h2 : c = '\\'
      · subst h2
        show stringLoop false acc ('\\' :: '\\' :: (cs.flatMap escGo ++ '"' :: rest)) = _
        rw [stringLoop_false_backslash, stringLoop_true_backslash, ih]
        simp
      · by_cases h3 : c = '\x08'
        · subst h3
          show stringLoop false acc ('\\' :: 'b' :: (cs.flatMap escGo ++ '"' :: rest)) = _
          rw [stringLoop_false_backslash, stringLoop_true_b, ih]
          simp
        · by_cases h4 : c = '\x0C'
          · subst h4
            show stringLoop false acc ('\\' :: 'f' :: (cs.flatMap escGo ++ '"' :: rest)) = _
            rw [stringLoop_false_backslash, stringLoop_true_f, ih]
            simp
          · by_cases h5 : c = '\n'
            · subst h5
              show stringLoop false acc ('\\' :: 'n' :: (cs.flatMap escGo ++ '"' :: rest)) = _
              rw [stringLoop_false_backslash, stringLoop_true_n, ih]
              simp
            · by_cases h6 : c = '\x0D'
              · subst h6
                show stringLoop false acc ('\\' :: 'r' :: (cs.flatMap escGo ++ '"' :: rest)) = _
                rw [stringLoop_false_backslash, stringLoop_true_r, ih]
                simp
              · by_cases h7 : c = '\t'
                · subst h7
                  show stringLoop false acc ('\\' :: 't' :: (cs.flatMap escGo ++ '"' :: rest)) = _
                  rw [stringLoop_false_backslash, stringLoop_true_tab, ih]
                  simp
                · have he : escGo c = [c] := by
                    simp [escGo, h1, h2, h3, h4, h5, h6, h7]
                  rw [List.flatMap_cons, he, List.append_assoc]
                  show stringLoop false acc (c :: (cs.flatMap escGo ++ '"' :: rest)) = _
                  rw [stringLoop_false_other h2 h1, ih]
                  simp

/-- The writing loop of MarshalString emits the escape of each rune in order
and then the closing quote. -/
theorem marshalStringLoop_eq (s : List Char) :
    marshalStringLoop s = s.flatMap escGo ++ ['"'] := by
  induction s with
  | nil => rfl
  | cons c cs ih => simp [marshalStringLoop, ih]

/-- UnmarshalString undoes MarshalString, leaving the remainder intact. -/
theorem unmarshalString_marshal (s : List Char) (rest : List Char) :
    unmarshalString (marshalString s ++ rest) = .ok (s, rest) := by
  show stringLoop false [] (marshalStringLoop s ++ rest) = .ok (s, rest)
  rw [marshalStringLoop_eq, List.append_assoc]
  rw [show (['"'] ++ rest : List Char) = '"' :: rest from rfl,
    stringLoop_marshal s [] rest]
  simp

/-- The head rune of every well-formed encoded value: never whitespace and
never a closing bracket, so the array loop always dispatches it into the
value production. -/
theorem marshalValue_head (v : Value) (hv : wfValue v = true) :
    ∃ c t, marshalValue v = c :: t ∧ isJsonWhitespace c = false ∧ c ≠ ']' := by
  cases v with
  | null => exact ⟨'n', _, rfl, rfl, by decide⟩
  | bool b => cases b with
    | true => exact ⟨'t', _, rfl, rfl, by decide⟩
    | false => exact ⟨'f', _, rfl, rfl, by decide⟩
  | integer n =>
    by_cases hn : n < 0
    · exact ⟨'-', _, by rw [show marshalValue (.integer n) = formatInt n from rfl,
        formatInt, if_pos hn], rfl, by decide⟩
    · obtain ⟨hall, -, hne⟩ := digitsOfNat_spec n.natAbs
      cases heq : digitsOfNat n.natAbs with
      | nil => exact absurd heq hne
      | cons d ds =>
        rw [heq] at hall
        simp only [List.all_cons, Bool.and_eq_true] at hall
        have hb := isDecDigit_bounds hall.1
        refine ⟨d, ds, ?_, isDecDigit_not_ws hall.1,
          @char_ne_of_toNat d ']' (by rw [show (']' : Char).toNat = 93 from rfl]; omega)⟩
        rw [show marshalValue (.integer n) = formatInt n from rfl, formatInt, if_neg hn, heq]
  | float x => exact absurd hv (by simp [wfValue])
  | string cs => exact ⟨'"', _, rfl, rfl, by decide⟩
  | array vs => exact ⟨'[', _, rfl, rfl, by decide⟩
  | object es => exact absurd hv (by simp [wfValue])

/-- Array loop, state 1, closing bracket. -/
theorem arrayLoop_step1_close (g : Nat) (values : List Value) (rest : List Char) :
    arrayLoop (g + 1) 1 values (']' :: rest) = .ok (values, rest) := rfl

/-- Array loop, state 1, a rune that starts a value. -/
theorem arrayLoop_step1_value {c : Char} (hws : isJsonWhitespace c = false)
    (hc : c ≠ ']') (g : Nat) (values : List Value) (t : List Char) :
    arrayLoop (g + 1) 1 values (c :: t)
      = match unmarshalValue g (c :: t) with
        | .error e => .error (.arrayValueFail e)
        | .ok (v, rest2) => arrayLoop g 2 (values ++ [v]) rest2 := by
  simp [arrayLoop, hws, hc]

/-- Array loop, state 2, comma. -/
theorem arrayLoop_step2_comma (g : Nat) (values : List Value) (rest : List Char) :
    arrayLoop (g + 1) 2 values (',' :: rest) = arrayLoop g 1 values rest := rfl

/-- Array loop, state 2, closing bracket. -/
theorem arrayLoop_step2_close (g : Nat) (values : List Value) (rest : List Char) :
    arrayLoop (g + 1) 2 values (']' :: rest) = .ok (values, rest) := rfl

/-- The head rune of a FormatInt rendering: a minus sign or a digit, so the
value dispatch always sends it into the number production. -/
theorem formatInt_head (n : Int) :
    ∃ c t, formatInt n = c :: t ∧ isJsonWhitespace c = false ∧ c ≠ '"'
      ∧ (goIsDigit c = true ∨ c = '-') := by
  by_cases hn : n < 0
  · exact ⟨'-', _, by rw [formatInt, if_pos hn], rfl, by decide, Or.inr rfl⟩
  · obtain ⟨hall, -, hne⟩ := digitsOfNat_spec n.natAbs
    cases heq : digitsOfNat n.natAbs with
    | nil => exact absurd heq hne
    | cons d ds =>
      rw [heq] at hall
      simp only [List.all_cons, Bool.and_eq_true] at hall
      have hb := isDecDigit_bounds hall.1
      exact ⟨d, ds, by rw [formatInt, if_neg hn, heq],
        isDecDigit_not_ws hall.1,
        @char_ne_of_toNat d '"' (by rw [show ('"' : Char).toNat = 34 from rfl]; omega),
        Or.inl (isDecDigit_goIsDigit hall.1)⟩

/-- One unfolding of the value production when the head rune dispatches to
the number production. -/
theorem unmarshalValue_step_number {c : Char} {t : List Char} (g : Nat)
    (hws : isJsonWhitespace c = false) (hq : c ≠ '"')
    (hdisp : goIsDigit c = true ∨ c = '-') :
    unmarshalValue (g + 1) (c :: t)
      = match unmarshalNumber (c :: t) with
        | .error e => .error e
        | .ok (v, rest2) => .ok (v, unmarshalWhitespace rest2) := by
  have e0 : unmarshalWhitespace (c :: t) = c :: t := by
    simp [unmarshalWhitespace, List.dropWhile, hws]
  simp only [unmarshalValue, e0]
  rw [if_neg hq, if_pos hdisp]

mutual

/-- The decoder undoes the encoder on every well-formed value, given enough
fuel and a remainder that cannot extend the encoded text. -/
theorem unmarshalValue_marshal (v : Value) (hv : wfValue v = true)
    (f : Nat) (rest : List Char) (hrest : goodRest rest) :
    unmarshalValue (f + cost v) (marshalValue v ++ rest) = .ok (v, rest) := by
  cases v with
  | null =>
    rw [show f + cost .null = f + 1 from rfl,
      show unmarshalValue (f + 1) (marshalValue .null ++ rest)
        = .ok (.null, unmarshalWhitespace rest) from rfl,
      unmarshalWhitespace_goodRest hrest]
  | bool b =>
    cases b with
    | true =>
      rw [show f + cost (.bool true) = f + 1 from rfl,
        show unmarshalValue (f + 1) (marshalValue (.bool true) ++ rest)
          = .ok (.bool true, unmarshalWhitespace rest) from rfl,
        unmarshalWhitespace_goodRest hrest]
    | false =>
      rw [show f + cost (.bool false) = f + 1 from rfl,
        show unmarshalValue (f + 1) (marshalValue (.bool false) ++ rest)
          = .ok (.bool false, unmarshalWhitespace rest) from rfl,
        unmarshalWhitespace_goodRest hrest]
  | integer n =>
    have hv' : -((pow2 63 : Nat) : Int) ≤ n ∧ n < ((pow2 63 : Nat) : Int) := by
      simpa [wfValue] using hv
    obtain ⟨c, t, heq, hws, hq, hdisp⟩ := formatInt_head n
    rw [show f + cost (.integer n) = f + 1 from rfl,
      show marshalValue (.integer n) = formatInt n from rfl, heq, List.cons_append,
      unmarshalValue_step_number f hws hq hdisp,
      ← List.cons_append, ← heq,
      unmarshalNumber_formatInt hv'.1 hv'.2 hrest]
    simp [unmarshalWhitespace_goodRest hrest]
  | float x => exact absurd hv (by simp [wfValue])
  | object es => exact absurd hv (by simp [wfValue])
  | string cs =>
    rw [show f + cost (.string cs) = f + 1 from rfl]
    have e0 : unmarshalWhitespace (marshalValue (.string cs) ++ rest)
        = '"' :: (marshalStringLoop cs ++ rest) := rfl
    have hs : marshalValue (.string cs) ++ rest
        = '"' :: (marshalStringLoop cs ++ rest) := rfl
    rw [hs]
    have e0' : unmarshalWhitespace ('"' :: (marshalStringLoop cs ++ rest))
        = '"' :: (marshalStringLoop cs ++ rest) := rfl
    simp only [unmarshalValue, e0']
    rw [if_pos trivial]
    have e1 : unmarshalString ('"' :: (marshalStringLoop cs ++ rest)) = .ok (cs, rest) :=
      unmarshalString_marshal cs rest
    rw [e1]
    simp [unmarshalWhitespace_goodRest hrest]
  | array vs =>
    have hvl : wfList vs = true := by simpa [wfValue] using hv
    rw [show f + cost (.array vs) = (f + 2 + costList vs) + 1 from by
      rw [show cost (.array vs) = 3 + costList vs from rfl]; omega]
    have hs : marshalValue (.array vs) ++ rest
        = '[' :: (marshalElems vs ++ (']' :: rest)) := by
      show ('[' :: (marshalElems vs ++ [']'])) ++ rest = _
      simp [List.append_assoc]
    rw [hs]
    have e0 : unmarshalWhitespace ('[' :: (marshalElems vs ++ (']' :: rest)))
        = '[' :: (marshalElems vs ++ (']' :: rest)) := rfl
    simp only [unmarshalValue, e0]
    rw [if_neg (by decide), if_neg (by decide), if_neg (by decide)]
    rw [if_pos trivial]
    have s0 : arrayLoop (f + 2 + costList vs) 0 []
        ('[' :: (marshalElems vs ++ (']' :: rest)))
        = arrayLoop (f + 1 + costList vs) 1 [] (marshalElems vs ++ (']' :: rest)) := by
      rw [show f + 2 + costList vs = (f + 1 + costList vs) + 1 from by omega]
      rfl
    rw [s0, show f + 1 + costList vs = (f + 1) + costList vs from by omega,
      arrayLoop_marshal vs hvl (f + 1) [] rest]
    simp [unmarshalWhitespace_goodRest hrest]
termination_by sizeOf v

/-- The array loop from state 1 consumes the encoded elements and the
closing bracket, appending the elements in order. -/
theorem arrayLoop_marshal (vs : List Value) (hv : wfList vs = true)
    (f : Nat) (values : List Value) (rest : List Char) :
    arrayLoop (f + costList vs) 1 values (marshalElems vs ++ (']' :: rest))
      = .ok (values ++ vs, rest) := by
  cases vs with
  | nil =>
    rw [show f + costList [] = f + 1 from rfl]
    show arrayLoop (f + 1) 1 values (']' :: rest) = _
    rw [arrayLoop_step1_close]
    simp
  | cons v vs' =>
    have hw : wfValue v = true ∧ wfList vs' = true := by
      simpa [wfList, Bool.and_eq_true] using hv
    obtain ⟨c, t, hhead, hws, hne⟩ := marshalValue_head v hw.1
    cases vs' with
    | nil =>
      rw [show f + costList [v] = (f + 2 + cost v) + 1 from by
        rw [show costList [v] = 2 + cost v + 1 from rfl]; omega]
      show arrayLoop (f + 2 + cost v + 1) 1 values
        (marshalValue v ++ (']' :: rest)) = _
      rw [hhead, List.cons_append,
        arrayLoop_step1_value hws hne (f + 2 + cost v) values _,
        ← List.cons_append, ← hhead,
        show f + 2 + cost v = (f + 2) + cost v from by omega,
        unmarshalValue_marshal v hw.1 (f + 2) (']' :: rest)
          ⟨rfl, rfl, by decide, by decide, by decide⟩]
      show arrayLoop ((f + 2) + cost v) 2 (values ++ [v]) (']' :: rest) = _
      rw [show (f + 2) + cost v = (f + 1 + cost v) + 1 from by omega,
        arrayLoop_step2_close]
    | cons w ws =>
      rw [show f + costList (v :: w :: ws)
          = (f + 1 + cost v + costList (w :: ws)) + 1 from by
        rw [show costList (v :: w :: ws) = 2 + cost v + costList (w :: ws) from rfl]
        omega]
      have hs : marshalElems (v :: w :: ws) ++ (']' :: rest)
          = marshalValue v ++ (',' :: (marshalElems (w :: ws) ++ (']' :: rest))) := by
        show (marshalValue v ++ ',' :: marshalElems (w :: ws)) ++ (']' :: rest) = _
        simp [List.append_assoc]
      rw [hs, hhead, List.cons_append,
        arrayLoop_step1_value hws hne (f + 1 + cost v + costList (w :: ws)) values _,
        ← List.cons_append, ← hhead,
        show f + 1 + cost v + costList (w :: ws)
          = (f + 1 + costList (w :: ws)) + cost v from by omega,
        unmarshalValue_marshal v hw.1 (f + 1 + costList (w :: ws))
          (',' :: (marshalElems (w :: ws) ++ (']' :: rest)))
          ⟨rfl, rfl, by decide, by decide, by decide⟩]
      show arrayLoop ((f + 1 + costList (w :: ws)) + cost v) 2 (values ++ [v])
        (',' :: (marshalElems (w :: ws) ++ (']' :: rest))) = _
      rw [show (f + 1 + costList (w :: ws)) + cost v
          = (f + cost v + costList (w :: ws)) + 1 from by omega,
        arrayLoop_step2_comma,
        show f + cost v + costList (w :: ws) = (f + cost v) + costList (w :: ws)
          from by omega,
        arrayLoop_marshal (w :: ws) hw.2 (f + cost v) (values ++ [v]) rest]
      simp
termination_by sizeOf vs

end

mutual

/-- The decoder fuel account is bounded by four times the encoded length. -/
theorem cost_le_marshal (v : Value) (hv : wfValue v = true) :
    cost v ≤ 4 * (marshalValue v).length := by
  cases v with
  | null => decide
  | bool b => cases b <;> decide
  | integer n =>
    obtain ⟨c, t, heq, -, -, -⟩ := formatInt_head n
    show cost (.integer n) ≤ 4 * (formatInt n).length
    rw [heq, show cost (.integer n) = 1 from rfl]
    simp only [List.length_cons]
    omega
  | float x => exact absurd hv (by simp [wfValue])
  | object es => exact absurd hv (by simp [wfValue])
  | string cs =>
    show cost (.string cs) ≤ 4 * ('"' :: marshalStringLoop cs).length
    rw [show cost (.string cs) = 1 from rfl]
    simp only [List.length_cons]
    omega
  | array vs =>
    have hvl : wfList vs = true := by simpa [wfValue] using hv
    show cost (.array vs) ≤ 4 * ('[' :: (marshalElems vs ++ [']'])).length
    rw [show cost (.array vs) = 3 + costList vs from rfl]
    have h := costList_le_marshal vs hvl
    simp only [List.length_cons, List.length_append, List.length_singleton]
    omega
termination_by sizeOf v

/-- The array-loop fuel account is bounded by the encoded elements. -/
theorem costList_le_marshal (vs : List Value) (hv : wfList vs = true) :
    costList vs ≤ 4 * (marshalElems vs).length + 4 := by
  cases vs with
  | nil => decide
  | cons v vs' =>
    have hw : wfValue v = true ∧ wfList vs' = true := by
      simpa [wfList, Bool.and_eq_true] using hv
    cases vs' with
    | nil =>
      show costList [v] ≤ 4 * (marshalValue v).length + 4
      rw [show costList [v] = 2 + cost v + 1 from rfl]
      have h := cost_le_marshal v hw.1
      omega
    | cons w ws =>
      show costList (v :: w :: ws)
        ≤ 4 * (marshalValue v ++ ',' :: marshalElems (w :: ws)).length + 4
      rw [show costList (v :: w :: ws) = 2 + cost v + costList (w :: ws) from rfl]
      have h1 := cost_le_marshal v hw.1
      have h2 := costList_le_marshal (w :: ws) hw.2
      simp only [List.length_append, List.length_cons]
      omega
termination_by sizeOf vs

end

/-- C4 amended: every value without Object and Float variants (integers in
the int64 range) decodes from its own encoding back to itself. -/
theorem c4_roundtrip (v : Value) (hv : wfValue v = true) :
    decode (marshalValue v) = .ok v := by
  have hle := cost_le_marshal v hv
  have h := unmarshalValue_marshal v hv
    (4 * (marshalValue v).length + 4 - cost v) [] trivial
  rw [List.append_nil,
    show (4 * (marshalValue v).length + 4 - cost v) + cost v
      = 4 * (marshalValue v).length + 4 from by omega] at h
  simp only [decode, h]

/-- C4 witness: a concrete mixed array round-trips. -/
theorem c4_roundtrip_witness :
    wfValue (.array [.integer 1, .string ['a'], .bool true, .null]) = true
    ∧ decode (marshalValue (.array [.integer 1, .string ['a'], .bool true, .null]))
      = .ok (.array [.integer 1, .string ['a'], .bool true, .null]) :=
  ⟨rfl, c4_roundtrip _ rfl⟩

/-- Splitting the whitespace skip across an append. -/
theorem unmarshalWhitespace_append (s u : List Char) :
    unmarshalWhitespace (s ++ u)
      = if unmarshalWhitespace s = [] then unmarshalWhitespace u
        else unmarshalWhitespace s ++ u := by
  induction s with
  | nil => simp [unmarshalWhitespace]
  | cons c cs ih =>
    by_cases h : isJsonWhitespace c = true
    · simpa [unmarshalWhitespace, List.dropWhile_cons, h] using ih
    · simp [unmarshalWhitespace, List.dropWhile_cons, h]

/-- The whitespace skip consumes an all-whitespace list entirely. -/
theorem unmarshalWhitespace_wsOnly {e : List Char}
    (he : ∀ c ∈ e, isJsonWhitespace c = true) :
    unmarshalWhitespace e = [] := by
  induction e with
  | nil => rfl
  | cons c cs ih =>
    simp only [unmarshalWhitespace, List.dropWhile_cons, he c (by simp)]
    exact ih fun d hd => he d (by simp [hd])

/-- A JSON whitespace rune is one of the four listed characters. -/
theorem isJsonWhitespace_cases {c : Char} (h : isJsonWhitespace c = true) :
    c = ' ' ∨ c = '\n' ∨ c = '\x0D' ∨ c = '\t' := by
  simpa [isJsonWhitespace, Bool.or_eq_true, beq_iff_eq, or_assoc] using h

/-- One unfolding of the value production at an exhausted stream. -/
theorem unmarshalValue_nil (g : Nat) {s : List Char}
    (hw : unmarshalWhitespace s = []) :
    unmarshalValue (g + 1) s = .error .readRuneFail := by
  simp only [unmarshalValue, hw]

/-- One unfolding of the value production, exposing the dispatch if-chain. -/
theorem unmarshalValue_step (g : Nat) {s : List Char} {r : Char} {rest : List Char}
    (hw : unmarshalWhitespace s = r :: rest) :
    unmarshalValue (g + 1) s
      = match
          (if r = '"' then
            match unmarshalString (r :: rest) with
            | .error e => .error e
            | .ok (cs, rest2) => .ok (Value.string cs, rest2)
          else if goIsDigit r ∨ r = '-' then unmarshalNumber (r :: rest)
          else if r = '{' then
            match objectLoop g 0 [] [] (r :: rest) with
            | .error e => .error e
            | .ok (es, rest2) => .ok (Value.object es, rest2)
          else if r = '[' then
            match arrayLoop g 0 [] (r :: rest) with
            | .error e => .error e
            | .ok (vs, rest2) => .ok (Value.array vs, rest2)
          else if r = 't' then unmarshalTrue (r :: rest)
          else if r = 'f' then unmarshalFalse (r :: rest)
          else if r = 'n' then unmarshalNull (r :: rest)
          else .error (.unexpectedChar r)) with
      | .error e => .error e
      | .ok (v, rest2) => .ok (v, unmarshalWhitespace rest2) := by
  simp only [unmarshalValue, hw]

/-- One unfolding of the object loop on a nonempty stream. -/
theorem objectLoop_step (g state : Nat) (key : List Char)
    (obj : List (List Char × Value)) (r : Char) (rest : List Char) :
    objectLoop (g + 1) state key obj (r :: rest)
      = (if state = 0 then
          if r = '{' then objectLoop g 1 key obj rest
          else .error .objectNoOpen
        else if state = 1 ∨ state = 5 then
          if isJsonWhitespace r then objectLoop g state key obj rest
          else if state = 1 ∧ r = '}' then .ok (obj, rest)
          else
            match unmarshalString (r :: rest) with
            | .error e => .error (.objectKeyFail e)
            | .ok (k, rest2) => objectLoop g 2 k obj rest2
        else if state = 2 then
          if isJsonWhitespace r then objectLoop g 2 key obj rest
          else if r = ':' then objectLoop g 3 key obj rest
          else .error (.objectNoColon key)
        else if state = 3 then
          match unmarshalValue g rest with
          | .error _ => .error (.objectValueFail key)
          | .ok (v, rest2) => objectLoop g 4 key (mapInsert obj key v) rest2
        else if state = 4 then
          if r = '}' then .ok (obj, rest)
          else if r = ',' then objectLoop g 5 key obj rest
          else objectLoop g 4 key obj rest
        else objectLoop g state key obj rest) := by
  simp only [objectLoop]

/-- One unfolding of the array loop on a nonempty stream. -/
theorem arrayLoop_step (g state : Nat) (values : List Value)
    (r : Char) (rest : List Char) :
    arrayLoop (g + 1) state values (r :: rest)
      = (if state = 0 then
          if r = '[' then arrayLoop g 1 values rest
          else .error .arrayNoOpen
        else if state = 1 then
          if isJsonWhitespace r then arrayLoop g 1 values rest
          else if r = ']' then .ok (values, rest)
          else
            match unmarshalValue g (r :: rest) with
            | .error e => .error (.arrayValueFail e)
            | .ok (v, rest2) => arrayLoop g 2 (values ++ [v]) rest2
        else if state = 2 then
          if r = ',' then arrayLoop g 1 values rest
          else if r = ']' then .ok (values, rest)
          else .error .arrayNoCommaOrBracket
        else arrayLoop g state values rest) := by
  simp only [arrayLoop]

/-- Appending whitespace-only text: the skip result is empty exactly when it
was empty before, and untouched (with the suffix) otherwise. -/
theorem unmarshalWhitespace_append_ws {e : List Char}
    (he : ∀ c ∈ e, isJsonWhitespace c = true) (t : List Char) :
    unmarshalWhitespace (t ++ e)
      = if unmarshalWhitespace t = [] then []
        else unmarshalWhitespace t ++ e := by
  rw [unmarshalWhitespace_append, unmarshalWhitespace_wsOnly he]

/-- A JSON whitespace rune continues no state of the number automaton. -/
theorem ws_not_number_char {c : Char} (h : isJsonWhitespace c = true) :
    goIsDigit c = false ∧ c ≠ '-' ∧ c ≠ '+' ∧ c ≠ '0' ∧ c ≠ '.' ∧
      c ≠ 'e' ∧ c ≠ 'E' := by
  rcases isJsonWhitespace_cases h with h | h | h | h <;> subst h <;>
    exact ⟨rfl, by decide, by decide, by decide, by decide, by decide, by decide⟩

/-- The number automaton at end of stream. -/
theorem numberLoop_nil (st : Nat) (buf : List Char) :
    numberLoop st buf []
      = if st = 2 ∨ st = 3 ∨ st = 4 ∨ st = 6 ∨ st = 9 then .ok (buf, [])
        else .error (.invalidNumberChar (buf ++ [Char.ofNat 0])) := by
  simp only [numberLoop]

/-- One unfolding of the number automaton on a nonempty stream. -/
theorem numberLoop_cons (st : Nat) (buf : List Char) (r : Char)
    (rest : List Char) :
    numberLoop st buf (r :: rest)
      = (if st = 0 then
          if r = '-' then numberLoop 1 (buf ++ [r]) rest
          else if r = '0' then numberLoop 2 (buf ++ [r]) rest
          else if goIsDigit r then numberLoop 3 (buf ++ [r]) rest
          else .error (.invalidNumberChar (buf ++ [r]))
        else if st = 1 then
          if r = '0' then numberLoop 2 (buf ++ [r]) rest
          else if goIsDigit r then numberLoop 3 (buf ++ [r]) rest
          else .error (.invalidNumberChar (buf ++ [r]))
        else if st = 2 then
          if r = '.' then numberLoop 5 (buf ++ [r]) rest
          else if r = 'e' ∨ r = 'E' then numberLoop 7 (buf ++ [r]) rest
          else .ok (buf, r :: rest)
        else if st = 3 ∨ st = 4 then
          if goIsDigit r then numberLoop 4 (buf ++ [r]) rest
          else if r = '.' then numberLoop 5 (buf ++ [r]) rest
          else if r = 'e' ∨ r = 'E' then numberLoop 7 (buf ++ [r]) rest
          else .ok (buf, r :: rest)
        else if st = 5 then
          if goIsDigit r then numberLoop 6 (buf ++ [r]) rest
          else .error (.invalidNumberChar (buf ++ [r]))
        else if st = 6 then
          if goIsDigit r then numberLoop 6 (buf ++ [r]) rest
          else if r = 'e' ∨ r = 'E' then numberLoop 7 (buf ++ [r]) rest
          else .ok (buf, r :: rest)
        else if st = 7 then
          if r = '-' ∨ r = '+' then numberLoop 8 (buf ++ [r]) rest
          else if goIsDigit r then numberLoop 9 (buf ++ [r]) rest
          else .error (.invalidNumberChar (buf ++ [r]))
        else if st = 8 then
          if goIsDigit r then numberLoop 9 (buf ++ [r]) rest
          else .error (.invalidNumberChar (buf ++ [r]))
        else if st = 9 then
          if goIsDigit r then numberLoop 9 (buf ++ [r]) rest
          else .ok (buf, r :: rest)
        else numberLoop st (buf ++ [r]) rest) := by
  simp only [numberLoop]

/-- String loop, escape mode, escaped solidus. -/
theorem stringLoop_true_slash (acc u : List Char) :
    stringLoop true acc ('/' :: u) = stringLoop false (acc ++ ['/']) u := by
  rw [stringLoop.eq_def]; simp

/-- String loop, escape mode, unicode escape with four runes available. -/
theorem stringLoop_true_u (acc : List Char) (h1 h2 h3 h4 : Char)
    (u : List Char) :
    stringLoop true acc ('u' :: h1 :: h2 :: h3 :: h4 :: u)
      = match parseHex32 [h1, h2, h3, h4] with
        | some n => stringLoop false (acc ++ [goWriteRune n]) u
        | none => .error .unicodeConvFail := by
  rw [stringLoop.eq_def]; simp

/-- UnmarshalTrue reads only the first four runes, so a suffix passes
through. -/
theorem unmarshalTrue_append (e : List Char) {s : List Char} {v : Value}
    {out : List Char} (h : unmarshalTrue s = .ok (v, out)) :
    unmarshalTrue (s ++ e) = .ok (v, out ++ e) := by
  unfold unmarshalTrue at h ⊢
  by_cases hl : (s.take 4).length ≠ 4
  · rw [if_pos hl] at h; exact Except.noConfusion h
  · rw [if_neg hl] at h
    have h4 : 4 ≤ s.length := by
      have := List.length_take 4 s
      omega
    have hta : (s ++ e).take 4 = s.take 4 := List.take_append_of_le_length h4
    have hda : (s ++ e).drop 4 = s.drop 4 ++ e := List.drop_append_of_le_length h4
    by_cases ht : s.take 4 = TRUE_CHARS
    · rw [if_pos ht] at h
      injection h with h2
      injection h2 with hv hout
      subst hv; subst hout
      rw [hta, hda, if_neg hl, if_pos ht]
    · rw [if_neg ht] at h; exact Except.noConfusion h

/-- UnmarshalFalse reads only the first five runes, so a suffix passes
through. -/
theorem unmarshalFalse_append (e : List Char) {s : List Char} {v : Value}
    {out : List Char} (h : unmarshalFalse s = .ok (v, out)) :
    unmarshalFalse (s ++ e) = .ok (v, out ++ e) := by
  unfold unmarshalFalse at h ⊢
  by_cases hl : (s.take 5).length ≠ 5
  · rw [if_pos hl] at h; exact Except.noConfusion h
  · rw [if_neg hl] at h
    have h5 : 5 ≤ s.length := by
      have := List.length_take 5 s
      omega
    have hta : (s ++ e).take 5 = s.take 5 := List.take_append_of_le_length h5
    have hda : (s ++ e).drop 5 = s.drop 5 ++ e := List.drop_append_of_le_length h5
    by_cases ht : s.take 5 = FALSE_CHARS
    · rw [if_pos ht] at h
      injection h with h2
      injection h2 with hv hout
      subst hv; subst hout
      rw [hta, hda, if_neg hl, if_pos ht]
    · rw [if_neg ht] at h; exact Except.noConfusion h

/-- UnmarshalNull reads only the first four runes, so a suffix passes
through. -/
theorem unmarshalNull_append (e : List Char) {s : List Char} {v : Value}
    {out : List Char} (h : unmarshalNull s = .ok (v, out)) :
    unmarshalNull (s ++ e) = .ok (v, out ++ e) := by
  unfold unmarshalNull at h ⊢
  by_cases hl : (s.take 4).length ≠ 4
  · rw [if_pos hl] at h; exact Except.noConfusion h
  · rw [if_neg hl] at h
    have h4 : 4 ≤ s.length := by
      have := List.length_take 4 s
      omega
    have hta : (s ++ e).take 4 = s.take 4 := List.take_append_of_le_length h4
    have hda : (s ++ e).drop 4 = s.drop 4 ++ e := List.drop_append_of_le_length h4
    by_cases ht : s.take 4 = NULL_CHARS
    · rw [if_pos ht] at h
      injection h with h2
      injection h2 with hv hout
      subst hv; subst hout
      rw [hta, hda, if_neg hl, if_pos ht]
    · rw [if_neg ht] at h; exact Except.noConfusion h

/-- The string loop never consumes past the closing quote: a suffix of the
stream passes through to the remainder. -/
theorem stringLoop_append (e : List Char) (b : Bool) (acc s : List Char)
    (a out : List Char) (h : stringLoop b acc s = .ok (a, out)) :
    stringLoop b acc (s ++ e) = .ok (a, out ++ e) := by
  cases s with
  | nil =>
    cases b <;> (rw [stringLoop.eq_def] at h; simp at h)
  | cons r rest =>
    rw [List.cons_append]
    cases b with
    | false =>
      by_cases hb : r = '\\'
      · subst hb
        rw [stringLoop_false_backslash] at h
        rw [stringLoop_false_backslash]
        exact stringLoop_append e true acc rest a out h
      · by_cases hq : r = '"'
        · subst hq
          rw [stringLoop_false_quote] at h
          injection h with h2
          injection h2 with ha hout
          subst ha; subst hout
          rw [stringLoop_false_quote]
        · rw [stringLoop_false_other hb hq] at h
          rw [stringLoop_false_other hb hq]
          exact stringLoop_append e false (acc ++ [r]) rest a out h
    | true =>
      by_cases hq : r = '"'
      · subst hq
        rw [stringLoop_true_quote] at h
        rw [stringLoop_true_quote]
        exact stringLoop_append e false (acc ++ ['"']) rest a out h
      · by_cases hbs : r = '\\'
        · subst hbs
          rw [stringLoop_true_backslash] at h
          rw [stringLoop_true_backslash]
          exact stringLoop_append e false (acc ++ ['\\']) rest a out h
        · by_cases hsl : r = '/'
          · subst hsl
            rw [stringLoop_true_slash] at h
            rw [stringLoop_true_slash]
            exact stringLoop_append e false (acc ++ ['/']) rest a out h
          · by_cases hbb : r = 'b'
            · subst hbb
              rw [stringLoop_true_b] at h
              rw [stringLoop_true_b]
              exact stringLoop_append e false (acc ++ ['\x08']) rest a out h
            · by_cases hf : r = 'f'
              · subst hf
                rw [stringLoop_true_f] at h
                rw [stringLoop_true_f]
                exact stringLoop_append e false (acc ++ ['\x0C']) rest a out h
              · by_cases hn : r = 'n'
                · subst hn
                  rw [stringLoop_true_n] at h
                  rw [stringLoop_true_n]
                  exact stringLoop_append e false (acc ++ ['\n']) rest a out h
                · by_cases hr : r = 'r'
                  · subst hr
                    rw [stringLoop_true_r] at h
                    rw [stringLoop_true_r]
                    exact stringLoop_append e false (acc ++ ['\x0D']) rest a out h
                  · by_cases hth : r = 't'
                    · subst hth
                      rw [stringLoop_true_tab] at h
                      rw [stringLoop_true_tab]
                      exact stringLoop_append e false (acc ++ ['\t']) rest a out h
                    · by_cases hu : r = 'u'
                      · subst hu
                        match hrest : rest with
                        | [] =>
                          rw [stringLoop.eq_def] at h
                          simp at h
                        | [h1] =>
                          rw [stringLoop.eq_def] at h
                          simp at h
                        | [h1, h2] =>
                          rw [stringLoop.eq_def] at h
                          simp at h
                        | [h1, h2, h3] =>
                          rw [stringLoop.eq_def] at h
                          simp at h
                        | h1 :: h2 :: h3 :: h4 :: rest2 =>
                          rw [stringLoop_true_u] at h
                          rw [List.cons_append, List.cons_append,
                            List.cons_append, List.cons_append,
                            stringLoop_true_u]
                          cases hx : parseHex32 [h1, h2, h3, h4] with
                          | none =>
                            rw [hx] at h
                            have h' : (Except.error JErr.unicodeConvFail :
                                Except JErr (List Char × List Char))
                                = Except.ok (a, out) := h
                            exact Except.noConfusion h'
                          | some n =>
                            rw [hx] at h
                            have h' : stringLoop false
                                (acc ++ [goWriteRune n]) rest2
                                = Except.ok (a, out) := h
                            show stringLoop false (acc ++ [goWriteRune n])
                              (rest2 ++ e) = Except.ok (a, out ++ e)
                            exact stringLoop_append e false
                              (acc ++ [goWriteRune n]) rest2 a out h' 
                      · rw [stringLoop.eq_def] at h
                        simp [hq, hbs, hsl, hbb, hf, hn, hr, hth, hu] at h
termination_by s.length
decreasing_by
  all_goals (subst_vars; simp; try omega)

/-- UnmarshalString never consumes past the closing quote. -/
theorem unmarshalString_append (e : List Char) {s : List Char}
    {a out : List Char} (h : unmarshalString s = .ok (a, out)) :
    unmarshalString (s ++ e) = .ok (a, out ++ e) := by
  cases s with
  | nil => exact Except.noConfusion h
  | cons r rest =>
    have h' : (if r = '"' then stringLoop false [] rest
        else .error (.stringNoQuote r) : Except JErr (List Char × List Char))
        = .ok (a, out) := h
    show (if r = '"' then stringLoop false [] (rest ++ e)
        else .error (.stringNoQuote r) : Except JErr (List Char × List Char))
        = .ok (a, out ++ e)
    by_cases hq : r = '"'
    · rw [if_pos hq] at h' ⊢
      exact stringLoop_append e false [] rest a out h'
    · rw [if_neg hq] at h'
      exact Except.noConfusion h' 

/-- The number automaton only consumes one rune past the token: appending
whitespace-only text passes it through to the remainder (end of stream in an
accepting state becomes a whitespace-terminated valid end). -/
theorem numberLoop_append {e : List Char}
    (he : ∀ c ∈ e, isJsonWhitespace c = true) :
    ∀ (s : List Char) (st : Nat) (buf b out : List Char),
      numberLoop st buf s = .ok (b, out) →
      numberLoop st buf (s ++ e) = .ok (b, out ++ e) := by
  intro s
  induction s with
  | nil =>
    intro st buf b out h
    rw [numberLoop_nil] at h
    by_cases hacc : st = 2 ∨ st = 3 ∨ st = 4 ∨ st = 6 ∨ st = 9
    · rw [if_pos hacc] at h
      injection h with h2
      injection h2 with hb hout
      subst hb; subst hout
      rw [List.nil_append]
      cases e with
      | nil => rw [numberLoop_nil, if_pos hacc]
      | cons c e2 =>
        have hc := he c (List.mem_cons_self c e2)
        obtain ⟨hd, hm, hp, hz, hdot, hel, heu⟩ := ws_not_number_char hc
        rcases hacc with h2 | h3 | h4 | h6 | h9 <;> subst st <;>
          rw [numberLoop_cons] <;> simp [hd, hm, hp, hz, hdot, hel, heu]
    · rw [if_neg hacc] at h
      exact Except.noConfusion h
  | cons c s2 ih =>
    intro st buf b out h
    rw [numberLoop_cons] at h
    rw [List.cons_append, numberLoop_cons]
    by_cases h0 : st = 0
    · rw [if_pos h0] at h ⊢
      by_cases hm : c = '-'
      · rw [if_pos hm] at h ⊢; exact ih 1 (buf ++ [c]) b out h
      · rw [if_neg hm] at h ⊢
        by_cases hz : c = '0'
        · rw [if_pos hz] at h ⊢; exact ih 2 (buf ++ [c]) b out h
        · rw [if_neg hz] at h ⊢
          by_cases hd : goIsDigit c = true
          · rw [if_pos hd] at h ⊢; exact ih 3 (buf ++ [c]) b out h
          · rw [if_neg hd] at h; exact Except.noConfusion h
    · rw [if_neg h0] at h ⊢
      by_cases h1 : st = 1
      · rw [if_pos h1] at h ⊢
        by_cases hz : c = '0'
        · rw [if_pos hz] at h ⊢; exact ih 2 (buf ++ [c]) b out h
        · rw [if_neg hz] at h ⊢
          by_cases hd : goIsDigit c = true
          · rw [if_pos hd] at h ⊢; exact ih 3 (buf ++ [c]) b out h
          · rw [if_neg hd] at h; exact Except.noConfusion h
      · rw [if_neg h1] at h ⊢
        by_cases h2 : st = 2
        · rw [if_pos h2] at h ⊢
          by_cases hdot : c = '.'
          · rw [if_pos hdot] at h ⊢; exact ih 5 (buf ++ [c]) b out h
          · rw [if_neg hdot] at h ⊢
            by_cases hexp : c = 'e' ∨ c = 'E'
            · rw [if_pos hexp] at h ⊢; exact ih 7 (buf ++ [c]) b out h
            · rw [if_neg hexp] at h ⊢
              injection h with h3
              injection h3 with hb hout
              subst hb; subst hout
              rw [List.cons_append]
        · rw [if_neg h2] at h ⊢
          by_cases h34 : st = 3 ∨ st = 4
          · rw [if_pos h34] at h ⊢
            by_cases hd : goIsDigit c = true
            · rw [if_pos hd] at h ⊢; exact ih 4 (buf ++ [c]) b out h
            · rw [if_neg hd] at h ⊢
              by_cases hdot : c = '.'
              · rw [if_pos hdot] at h ⊢; exact ih 5 (buf ++ [c]) b out h
              · rw [if_neg hdot] at h ⊢
                by_cases hexp : c = 'e' ∨ c = 'E'
                · rw [if_pos hexp] at h ⊢; exact ih 7 (buf ++ [c]) b out h
                · rw [if_neg hexp] at h ⊢
                  injection h with h3
                  injection h3 with hb hout
                  subst hb; subst hout
                  rw [List.cons_append]
          · rw [if_neg h34] at h ⊢
            by_cases h5 : st = 5
            · rw [if_pos h5] at h ⊢
              by_cases hd : goIsDigit c = true
              · rw [if_pos hd] at h ⊢; exact ih 6 (buf ++ [c]) b out h
              · rw [if_neg hd] at h; exact Except.noConfusion h
            · rw [if_neg h5] at h ⊢
              by_cases h6 : st = 6
              · rw [if_pos h6] at h ⊢
                by_cases hd : goIsDigit c = true
                · rw [if_pos hd] at h ⊢; exact ih 6 (buf ++ [c]) b out h
                · rw [if_neg hd] at h ⊢
                  by_cases hexp : c = 'e' ∨ c = 'E'
                  · rw [if_pos hexp] at h ⊢; exact ih 7 (buf ++ [c]) b out h
                  · rw [if_neg hexp] at h ⊢
                    injection h with h3
                    injection h3 with hb hout
                    subst hb; subst hout
                    rw [List.cons_append]
              · rw [if_neg h6] at h ⊢
                by_cases h7 : st = 7
                · rw [if_pos h7] at h ⊢
                  by_cases hsgn : c = '-' ∨ c = '+'
                  · rw [if_pos hsgn] at h ⊢; exact ih 8 (buf ++ [c]) b out h
                  · rw [if_neg hsgn] at h ⊢
                    by_cases hd : goIsDigit c = true
                    · rw [if_pos hd] at h ⊢; exact ih 9 (buf ++ [c]) b out h
                    · rw [if_neg hd] at h; exact Except.noConfusion h
                · rw [if_neg h7] at h ⊢
                  by_cases h8 : st = 8
                  · rw [if_pos h8] at h ⊢
                    by_cases hd : goIsDigit c = true
                    · rw [if_pos hd] at h ⊢; exact ih 9 (buf ++ [c]) b out h
                    · rw [if_neg hd] at h; exact Except.noConfusion h
                  · rw [if_neg h8] at h ⊢
                    by_cases h9 : st = 9
                    · rw [if_pos h9] at h ⊢
                      by_cases hd : goIsDigit c = true
                      · rw [if_pos hd] at h ⊢; exact ih 9 (buf ++ [c]) b out h
                      · rw [if_neg hd] at h ⊢
                        injection h with h3
                        injection h3 with hb hout
                        subst hb; subst hout
                        rw [List.cons_append]
                    · rw [if_neg h9] at h ⊢
                      exact ih st (buf ++ [c]) b out h

/-- UnmarshalNumber only consumes one rune past the token: appending
whitespace-only text passes it through to the remainder. -/
theorem unmarshalNumber_append {e : List Char}
    (he : ∀ c ∈ e, isJsonWhitespace c = true) {s : List Char} {v : Value}
    {out : List Char} (h : unmarshalNumber s = .ok (v, out)) :
    unmarshalNumber (s ++ e) = .ok (v, out ++ e) := by
  unfold unmarshalNumber at h ⊢
  cases hn : numberLoop 0 [] s with
  | error err =>
    rw [hn] at h
    have h' : (Except.error err : Except JErr (Value × List Char))
        = .ok (v, out) := h
    exact Except.noConfusion h'
  | ok p =>
    obtain ⟨buf, rest⟩ := p
    rw [hn] at h
    rw [numberLoop_append he s 0 [] buf rest hn]
    have h2 : (match convertToNumber buf with
        | Except.error e => Except.error e
        | Except.ok w => Except.ok (w, rest) : Except JErr (Value × List Char))
        = .ok (v, out) := h
    show (match convertToNumber buf with
        | Except.error e => Except.error e
        | Except.ok w => Except.ok (w, rest ++ e) : Except JErr (Value × List Char))
        = .ok (v, out ++ e)
    cases hc : convertToNumber buf with
    | error err =>
      rw [hc] at h2
      exact Except.noConfusion h2
    | ok v2 =>
      rw [hc] at h2
      injection h2 with h3
      injection h3 with hv hout
      subst hv; subst hout
      rfl

/-- The object loop cannot succeed on an exhausted stream. -/
theorem objectLoop_nil (f st : Nat) (key : List Char)
    (obj : List (List Char × Value)) (x : List (List Char × Value) × List Char) :
    objectLoop f st key obj [] ≠ .ok x := by
  cases f with
  | zero => exact fun h => Except.noConfusion h
  | succ f => exact fun h => Except.noConfusion h

/-- The array loop cannot succeed on an exhausted stream. -/
theorem arrayLoop_nil (f st : Nat) (vals : List Value)
    (x : List Value × List Char) :
    arrayLoop f st vals [] ≠ .ok x := by
  cases f with
  | zero => exact fun h => Except.noConfusion h
  | succ f => exact fun h => Except.noConfusion h

/-- Fuel monotonicity by one step, simultaneously for the three mutually
recursive productions. -/
theorem unmarshal_mono_succ : ∀ f : Nat,
    (∀ s x, unmarshalValue f s = .ok x → unmarshalValue (f + 1) s = .ok x)
    ∧ (∀ st key obj s x, objectLoop f st key obj s = .ok x →
        objectLoop (f + 1) st key obj s = .ok x)
    ∧ (∀ st vals s x, arrayLoop f st vals s = .ok x →
        arrayLoop (f + 1) st vals s = .ok x) := by
  intro f
  induction f with
  | zero =>
    refine ⟨?_, ?_, ?_⟩
    · intro s x h; exact absurd h (fun h => Except.noConfusion h)
    · intro st key obj s x h; exact absurd h (fun h => Except.noConfusion h)
    · intro st vals s x h; exact absurd h (fun h => Except.noConfusion h)
  | succ f ih =>
    obtain ⟨ihv, iho, iha⟩ := ih
    refine ⟨?_, ?_, ?_⟩
    · intro s x h
      cases hw : unmarshalWhitespace s with
      | nil =>
        rw [unmarshalValue_nil f hw] at h
        exact Except.noConfusion h
      | cons r rest =>
        rw [unmarshalValue_step f hw] at h
        rw [unmarshalValue_step (f + 1) hw]
        by_cases h1 : r = '"'
        · rw [if_pos h1] at h ⊢; exact h
        · rw [if_neg h1] at h ⊢
          by_cases h2 : goIsDigit r = true ∨ r = '-'
          · rw [if_pos h2] at h ⊢; exact h
          · rw [if_neg h2] at h ⊢
            by_cases h3 : r = '{'
            · rw [if_pos h3] at h ⊢
              cases ho : objectLoop f 0 [] [] (r :: rest) with
              | error err =>
                rw [ho] at h
                have h' : (Except.error err : Except JErr (Value × List Char))
                    = .ok x := h
                exact Except.noConfusion h'
              | ok p =>
                obtain ⟨es, rest2⟩ := p
                rw [ho] at h
                rw [iho 0 [] [] (r :: rest) (es, rest2) ho]
                exact h
            · rw [if_neg h3] at h ⊢
              by_cases h4 : r = '['
              · rw [if_pos h4] at h ⊢
                cases ha : arrayLoop f 0 [] (r :: rest) with
                | error err =>
                  rw [ha] at h
                  have h' : (Except.error err : Except JErr (Value × List Char))
                      = .ok x := h
                  exact Except.noConfusion h'
                | ok p =>
                  obtain ⟨vs, rest2⟩ := p
                  rw [ha] at h
                  rw [iha 0 [] (r :: rest) (vs, rest2) ha]
                  exact h
              · rw [if_neg h4] at h ⊢
                exact h
    · intro st key obj s x h
      cases s with
      | nil => exact absurd h (objectLoop_nil (f + 1) st key obj x)
      | cons r rest =>
        rw [objectLoop_step f st key obj r rest] at h
        rw [objectLoop_step (f + 1) st key obj r rest]
        by_cases h0 : st = 0
        · rw [if_pos h0] at h ⊢
          by_cases hb : r = '{'
          · rw [if_pos hb] at h ⊢; exact iho 1 key obj rest x h
          · rw [if_neg hb] at h ⊢; exact h
        · rw [if_neg h0] at h ⊢
          by_cases h15 : st = 1 ∨ st = 5
          · rw [if_pos h15] at h ⊢
            by_cases hws : isJsonWhitespace r = true
            · rw [if_pos hws] at h ⊢; exact iho st key obj rest x h
            · rw [if_neg hws] at h ⊢
              by_cases hcl : st = 1 ∧ r = '}'
              · rw [if_pos hcl] at h ⊢; exact h
              · rw [if_neg hcl] at h ⊢
                cases hk : unmarshalString (r :: rest) with
                | error err =>
                  rw [hk] at h
                  have h' : (Except.error (JErr.objectKeyFail err) :
                      Except JErr (List (List Char × Value) × List Char))
                      = .ok x := h
                  exact Except.noConfusion h'
                | ok p =>
                  obtain ⟨k, rest2⟩ := p
                  rw [hk] at h
                  have h' : objectLoop f 2 k obj rest2 = .ok x := h
                  exact iho 2 k obj rest2 x h' 
          · rw [if_neg h15] at h ⊢
            by_cases h2 : st = 2
            · rw [if_pos h2] at h ⊢
              by_cases hws : isJsonWhitespace r = true
              · rw [if_pos hws] at h ⊢; exact iho 2 key obj rest x h
              · rw [if_neg hws] at h ⊢
                by_cases hcl : r = ':'
                · rw [if_pos hcl] at h ⊢; exact iho 3 key obj rest x h
                · rw [if_neg hcl] at h ⊢; exact h
            · rw [if_neg h2] at h ⊢
              by_cases h3 : st = 3
              · rw [if_pos h3] at h ⊢
                cases hv : unmarshalValue f rest with
                | error err =>
                  rw [hv] at h
                  have h' : (Except.error (JErr.objectValueFail key) :
                      Except JErr (List (List Char × Value) × List Char))
                      = .ok x := h
                  exact Except.noConfusion h'
                | ok p =>
                  obtain ⟨v, rest2⟩ := p
                  rw [hv] at h
                  rw [ihv rest (v, rest2) hv]
                  have h' : objectLoop f 4 key (mapInsert obj key v) rest2
                      = .ok x := h
                  exact iho 4 key (mapInsert obj key v) rest2 x h'
              · rw [if_neg h3] at h ⊢
                by_cases h4 : st = 4
                · rw [if_pos h4] at h ⊢
                  by_cases hbr : r = '}'
                  · rw [if_pos hbr] at h ⊢; exact h
                  · rw [if_neg hbr] at h ⊢
                    by_cases hcm : r = ','
                    · rw [if_pos hcm] at h ⊢; exact iho 5 key obj rest x h
                    · rw [if_neg hcm] at h ⊢; exact iho 4 key obj rest x h
                · rw [if_neg h4] at h ⊢
                  exact iho st key obj rest x h
    · intro st vals s x h
      cases s with
      | nil => exact absurd h (arrayLoop_nil (f + 1) st vals x)
      | cons r rest =>
        rw [arrayLoop_step f st vals r rest] at h
        rw [arrayLoop_step (f + 1) st vals r rest]
        by_cases h0 : st = 0
        · rw [if_pos h0] at h ⊢
          by_cases hb : r = '['
          · rw [if_pos hb] at h ⊢; exact iha 1 vals rest x h
          · rw [if_neg hb] at h ⊢; exact h
        · rw [if_neg h0] at h ⊢
          by_cases h1 : st = 1
          · rw [if_pos h1] at h ⊢
            by_cases hws : isJsonWhitespace r = true
            · rw [if_pos hws] at h ⊢; exact iha 1 vals rest x h
            · rw [if_neg hws] at h ⊢
              by_cases hbr : r = ']'
              · rw [if_pos hbr] at h ⊢; exact h
              · rw [if_neg hbr] at h ⊢
                cases hv : unmarshalValue f (r :: rest) with
                | error err =>
                  rw [hv] at h
                  have h' : (Except.error (JErr.arrayValueFail err) :
                      Except JErr (List Value × List Char)) = .ok x := h
                  exact Except.noConfusion h'
                | ok p =>
                  obtain ⟨v, rest2⟩ := p
                  rw [hv] at h
                  rw [ihv (r :: rest) (v, rest2) hv]
                  have h' : arrayLoop f 2 (vals ++ [v]) rest2 = .ok x := h
                  exact iha 2 (vals ++ [v]) rest2 x h'
          · rw [if_neg h1] at h ⊢
            by_cases h2 : st = 2
            · rw [if_pos h2] at h ⊢
              by_cases hcm : r = ','
              · rw [if_pos hcm] at h ⊢; exact iha 1 vals rest x h
              · rw [if_neg hcm] at h ⊢; exact h
            · rw [if_neg h2] at h ⊢
              exact iha st vals rest x h

/-- Fuel monotonicity for the value production. -/
theorem unmarshalValue_mono {f g : Nat} (hfg : f ≤ g) {s : List Char}
    {x : Value × List Char} (h : unmarshalValue f s = .ok x) :
    unmarshalValue g s = .ok x := by
  induction g with
  | zero =>
    have hf : f = 0 := by omega
    subst hf
    exact absurd h (fun h => Except.noConfusion h)
  | succ g ihg =>
    by_cases hfe : f = g + 1
    · subst hfe; exact h
    · exact (unmarshal_mono_succ g).1 s x (ihg (by omega))

/-- Appending whitespace-only text to the stream preserves every successful
parse, simultaneously for the three mutually recursive productions.  The
value production reports the whitespace-skipped remainder, which stays empty
when it was empty; the loops report the remainder with the suffix intact. -/
theorem unmarshal_append_ws {e : List Char}
    (he : ∀ c ∈ e, isJsonWhitespace c = true) :
    ∀ f : Nat,
    (∀ s v rr, unmarshalValue f s = .ok (v, rr) →
       unmarshalValue f (s ++ e) = .ok (v, if rr = [] then [] else rr ++ e))
    ∧ (∀ st key obj s a rr, objectLoop f st key obj s = .ok (a, rr) →
       objectLoop f st key obj (s ++ e) = .ok (a, rr ++ e))
    ∧ (∀ st vals s a rr, arrayLoop f st vals s = .ok (a, rr) →
       arrayLoop f st vals (s ++ e) = .ok (a, rr ++ e)) := by
  intro f
  induction f with
  | zero =>
    refine ⟨?_, ?_, ?_⟩
    · intro s v rr h; exact absurd h (fun h => Except.noConfusion h)
    · intro st key obj s a rr h; exact absurd h (fun h => Except.noConfusion h)
    · intro st vals s a rr h; exact absurd h (fun h => Except.noConfusion h)
  | succ f ih =>
    obtain ⟨ihv, iho, iha⟩ := ih
    refine ⟨?_, ?_, ?_⟩
    · intro s v rr h
      cases hw : unmarshalWhitespace s with
      | nil =>
        rw [unmarshalValue_nil f hw] at h
        exact Except.noConfusion h
      | cons r rest =>
        have hw2 : unmarshalWhitespace (s ++ e) = r :: (rest ++ e) := by
          rw [unmarshalWhitespace_append, hw]; simp
        rw [unmarshalValue_step f hw] at h
        rw [unmarshalValue_step f hw2]
        by_cases h1 : r = '"'
        · rw [if_pos h1] at h ⊢
          cases hs : unmarshalString (r :: rest) with
          | error err =>
            rw [hs] at h
            have h' : (Except.error err : Except JErr (Value × List Char))
                = .ok (v, rr) := h
            exact Except.noConfusion h'
          | ok p =>
            obtain ⟨cs, rest2⟩ := p
            rw [hs] at h
            have h' : (Except.ok (Value.string cs, unmarshalWhitespace rest2) :
                Except JErr (Value × List Char)) = .ok (v, rr) := h
            injection h' with h2
            injection h2 with hv hrr
            subst hv; subst hrr
            rw [show unmarshalString (r :: (rest ++ e))
                = Except.ok (cs, rest2 ++ e) from unmarshalString_append e hs]
            show Except.ok (Value.string cs, unmarshalWhitespace (rest2 ++ e))
                = Except.ok (Value.string cs,
                    if unmarshalWhitespace rest2 = [] then []
                    else unmarshalWhitespace rest2 ++ e)
            rw [unmarshalWhitespace_append_ws he rest2]
        · rw [if_neg h1] at h ⊢
          by_cases h2 : goIsDigit r = true ∨ r = '-'
          · rw [if_pos h2] at h ⊢
            cases hn : unmarshalNumber (r :: rest) with
            | error err =>
              rw [hn] at h
              have h' : (Except.error err : Except JErr (Value × List Char))
                  = .ok (v, rr) := h
              exact Except.noConfusion h'
            | ok p =>
              obtain ⟨nv, rest2⟩ := p
              rw [hn] at h
              have h' : (Except.ok (nv, unmarshalWhitespace rest2) :
                  Except JErr (Value × List Char)) = .ok (v, rr) := h
              injection h' with h2'
              injection h2' with hv hrr
              subst hv; subst hrr
              rw [show unmarshalNumber (r :: (rest ++ e))
                  = Except.ok (nv, rest2 ++ e) from unmarshalNumber_append he hn]
              show Except.ok (nv, unmarshalWhitespace (rest2 ++ e))
                  = Except.ok (nv,
                      if unmarshalWhitespace rest2 = [] then []
                      else unmarshalWhitespace rest2 ++ e)
              rw [unmarshalWhitespace_append_ws he rest2]
          · rw [if_neg h2] at h ⊢
            by_cases h3 : r = '{'
            · rw [if_pos h3] at h ⊢
              cases ho : objectLoop f 0 [] [] (r :: rest) with
              | error err =>
                rw [ho] at h
                have h' : (Except.error err : Except JErr (Value × List Char))
                    = .ok (v, rr) := h
                exact Except.noConfusion h'
              | ok p =>
                obtain ⟨es, rest2⟩ := p
                rw [ho] at h
                have h' : (Except.ok (Value.object es,
                    unmarshalWhitespace rest2) :
                    Except JErr (Value × List Char)) = .ok (v, rr) := h
                injection h' with h2'
                injection h2' with hv hrr
                subst hv; subst hrr
                rw [show objectLoop f 0 [] [] (r :: (rest ++ e))
                    = Except.ok (es, rest2 ++ e)
                    from iho 0 [] [] (r :: rest) es rest2 ho]
                show Except.ok (Value.object es,
                      unmarshalWhitespace (rest2 ++ e))
                    = Except.ok (Value.object es,
                        if unmarshalWhitespace rest2 = [] then []
                        else unmarshalWhitespace rest2 ++ e)
                rw [unmarshalWhitespace_append_ws he rest2]
            · rw [if_neg h3] at h ⊢
              by_cases h4 : r = '['
              · rw [if_pos h4] at h ⊢
                cases ha : arrayLoop f 0 [] (r :: rest) with
                | error err =>
                  rw [ha] at h
                  have h' : (Except.error err : Except JErr (Value × List Char))
                      = .ok (v, rr) := h
                  exact Except.noConfusion h'
                | ok p =>
                  obtain ⟨vs, rest2⟩ := p
                  rw [ha] at h
                  have h' : (Except.ok (Value.array vs,
                      unmarshalWhitespace rest2) :
                      Except JErr (Value × List Char)) = .ok (v, rr) := h
                  injection h' with h2'
                  injection h2' with hv hrr
                  subst hv; subst hrr
                  rw [show arrayLoop f 0 [] (r :: (rest ++ e))
                      = Except.ok (vs, rest2 ++ e)
                      from iha 0 [] (r :: rest) vs rest2 ha]
                  show Except.ok (Value.array vs,
                        unmarshalWhitespace (rest2 ++ e))
                      = Except.ok (Value.array vs,
                          if unmarshalWhitespace rest2 = [] then []
                          else unmarshalWhitespace rest2 ++ e)
                  rw [unmarshalWhitespace_append_ws he rest2]
              · rw [if_neg h4] at h ⊢
                by_cases h5 : r = 't'
                · rw [if_pos h5] at h ⊢
                  cases ht : unmarshalTrue (r :: rest) with
                  | error err =>
                    rw [ht] at h
                    have h' : (Except.error err :
                        Except JErr (Value × List Char)) = .ok (v, rr) := h
                    exact Except.noConfusion h'
                  | ok p =>
                    obtain ⟨tv, rest2⟩ := p
                    rw [ht] at h
                    have h' : (Except.ok (tv, unmarshalWhitespace rest2) :
                        Except JErr (Value × List Char)) = .ok (v, rr) := h
                    injection h' with h2'
                    injection h2' with hv hrr
                    subst hv; subst hrr
                    rw [show unmarshalTrue (r :: (rest ++ e))
                        = Except.ok (tv, rest2 ++ e)
                        from unmarshalTrue_append e ht]
                    show Except.ok (tv, unmarshalWhitespace (rest2 ++ e))
                        = Except.ok (tv,
                            if unmarshalWhitespace rest2 = [] then []
                            else unmarshalWhitespace rest2 ++ e)
                    rw [unmarshalWhitespace_append_ws he rest2]
                · rw [if_neg h5] at h ⊢
                  by_cases h6 : r = 'f'
                  · rw [if_pos h6] at h ⊢
                    cases hf : unmarshalFalse (r :: rest) with
                    | error err =>
                      rw [hf] at h
                      have h' : (Except.error err :
                          Except JErr (Value × List Char)) = .ok (v, rr) := h
                      exact Except.noConfusion h'
                    | ok p =>
                      obtain ⟨fv, rest2⟩ := p
                      rw [hf] at h
                      have h' : (Except.ok (fv, unmarshalWhitespace rest2) :
                          Except JErr (Value × List Char)) = .ok (v, rr) := h
                      injection h' with h2'
                      injection h2' with hv hrr
                      subst hv; subst hrr
                      rw [show unmarshalFalse (r :: (rest ++ e))
                          = Except.ok (fv, rest2 ++ e)
                          from unmarshalFalse_append e hf]
                      show Except.ok (fv, unmarshalWhitespace (rest2 ++ e))
                          = Except.ok (fv,
                              if unmarshalWhitespace rest2 = [] then []
                              else unmarshalWhitespace rest2 ++ e)
                      rw [unmarshalWhitespace_append_ws he rest2]
                  · rw [if_neg h6] at h ⊢
                    by_cases h7 : r = 'n'
                    · rw [if_pos h7] at h ⊢
                      cases hnl : unmarshalNull (r :: rest) with
                      | error err =>
                        rw [hnl] at h
                        have h' : (Except.error err :
                            Except JErr (Value × List Char)) = .ok (v, rr) := h
                        exact Except.noConfusion h'
                      | ok p =>
                        obtain ⟨nv, rest2⟩ := p
                        rw [hnl] at h
                        have h' : (Except.ok (nv, unmarshalWhitespace rest2) :
                            Except JErr (Value × List Char)) = .ok (v, rr) := h
                        injection h' with h2'
                        injection h2' with hv hrr
                        subst hv; subst hrr
                        rw [show unmarshalNull (r :: (rest ++ e))
                            = Except.ok (nv, rest2 ++ e)
                            from unmarshalNull_append e hnl]
                        show Except.ok (nv, unmarshalWhitespace (rest2 ++ e))
                            = Except.ok (nv,
                                if unmarshalWhitespace rest2 = [] then []
                                else unmarshalWhitespace rest2 ++ e)
                        rw [unmarshalWhitespace_append_ws he rest2]
                    · rw [if_neg h7] at h
                      have h' : (Except.error (JErr.unexpectedChar r) :
                          Except JErr (Value × List Char)) = .ok (v, rr) := h
                      exact Except.noConfusion h'
    · intro st key obj s a rr h
      cases s with
      | nil => exact absurd h (objectLoop_nil (f + 1) st key obj (a, rr))
      | cons r rest =>
        rw [objectLoop_step f st key obj r rest] at h
        rw [List.cons_append, objectLoop_step f st key obj r (rest ++ e)]
        by_cases h0 : st = 0
        · rw [if_pos h0] at h ⊢
          by_cases hb : r = '{'
          · rw [if_pos hb] at h ⊢; exact iho 1 key obj rest a rr h
          · rw [if_neg hb] at h; exact Except.noConfusion h
        · rw [if_neg h0] at h ⊢
          by_cases h15 : st = 1 ∨ st = 5
          · rw [if_pos h15] at h ⊢
            by_cases hws : isJsonWhitespace r = true
            · rw [if_pos hws] at h ⊢; exact iho st key obj rest a rr h
            · rw [if_neg hws] at h ⊢
              by_cases hcl : st = 1 ∧ r = '}'
              · rw [if_pos hcl] at h ⊢
                injection h with h2
                injection h2 with ha hrr
                subst ha; subst hrr
                rfl
              · rw [if_neg hcl] at h ⊢
                cases hk : unmarshalString (r :: rest) with
                | error err =>
                  rw [hk] at h
                  have h' : (Except.error (JErr.objectKeyFail err) :
                      Except JErr (List (List Char × Value) × List Char))
                      = .ok (a, rr) := h
                  exact Except.noConfusion h'
                | ok p =>
                  obtain ⟨k, rest2⟩ := p
                  rw [hk] at h
                  have h' : objectLoop f 2 k obj rest2 = .ok (a, rr) := h
                  rw [show unmarshalString (r :: (rest ++ e))
                      = Except.ok (k, rest2 ++ e)
                      from unmarshalString_append e hk]
                  exact iho 2 k obj rest2 a rr h'
          · rw [if_neg h15] at h ⊢
            by_cases h2 : st = 2
            · rw [if_pos h2] at h ⊢
              by_cases hws : isJsonWhitespace r = true
              · rw [if_pos hws] at h ⊢; exact iho 2 key obj rest a rr h
              · rw [if_neg hws] at h ⊢
                by_cases hcl : r = ':'
                · rw [if_pos hcl] at h ⊢; exact iho 3 key obj rest a rr h
                · rw [if_neg hcl] at h; exact Except.noConfusion h
            · rw [if_neg h2] at h ⊢
              by_cases h3 : st = 3
              · rw [if_pos h3] at h ⊢
                cases hv : unmarshalValue f rest with
                | error err =>
                  rw [hv] at h
                  have h' : (Except.error (JErr.objectValueFail key) :
                      Except JErr (List (List Char × Value) × List Char))
                      = .ok (a, rr) := h
                  exact Except.noConfusion h'
                | ok p =>
                  obtain ⟨w, rest2⟩ := p
                  rw [hv] at h
                  have h' : objectLoop f 4 key (mapInsert obj key w) rest2
                      = .ok (a, rr) := h
                  by_cases hr2 : rest2 = []
                  · subst hr2
                    exact absurd h'
                      (objectLoop_nil f 4 key (mapInsert obj key w) (a, rr))
                  · have hv2 := ihv rest w rest2 hv
                    rw [if_neg hr2] at hv2
                    rw [hv2]
                    exact iho 4 key (mapInsert obj key w) rest2 a rr h'
              · rw [if_neg h3] at h ⊢
                by_cases h4 : st = 4
                · rw [if_pos h4] at h ⊢
                  by_cases hbr : r = '}'
                  · rw [if_pos hbr] at h ⊢
                    injection h with h2'
                    injection h2' with ha hrr
                    subst ha; subst hrr
                    rfl
                  · rw [if_neg hbr] at h ⊢
                    by_cases hcm : r = ','
                    · rw [if_pos hcm] at h ⊢; exact iho 5 key obj rest a rr h
                    · rw [if_neg hcm] at h ⊢; exact iho 4 key obj rest a rr h
                · rw [if_neg h4] at h ⊢
                  exact iho st key obj rest a rr h
    · intro st vals s a rr h
      cases s with
      | nil => exact absurd h (arrayLoop_nil (f + 1) st vals (a, rr))
      | cons r rest =>
        rw [arrayLoop_step f st vals r rest] at h
        rw [List.cons_append, arrayLoop_step f st vals r (rest ++ e)]
        by_cases h0 : st = 0
        · rw [if_pos h0] at h ⊢
          by_cases hb : r = '['
          · rw [if_pos hb] at h ⊢; exact iha 1 vals rest a rr h
          · rw [if_neg hb] at h; exact Except.noConfusion h
        · rw [if_neg h0] at h ⊢
          by_cases h1 : st = 1
          · rw [if_pos h1] at h ⊢
            by_cases hws : isJsonWhitespace r = true
            · rw [if_pos hws] at h ⊢; exact iha 1 vals rest a rr h
            · rw [if_neg hws] at h ⊢
              by_cases hbr : r = ']'
              · rw [if_pos hbr] at h ⊢
                injection h with h2
                injection h2 with ha hrr
                subst ha; subst hrr
                rfl
              · rw [if_neg hbr] at h ⊢
                cases hv : unmarshalValue f (r :: rest) with
                | error err =>
                  rw [hv] at h
                  have h' : (Except.error (JErr.arrayValueFail err) :
                      Except JErr (List Value × List Char)) = .ok (a, rr) := h
                  exact Except.noConfusion h'
                | ok p =>
                  obtain ⟨w, rest2⟩ := p
                  rw [hv] at h
                  have h' : arrayLoop f 2 (vals ++ [w]) rest2 = .ok (a, rr) := h
                  by_cases hr2 : rest2 = []
                  · subst hr2
                    exact absurd h' (arrayLoop_nil f 2 (vals ++ [w]) (a, rr))
                  · have hv2 := ihv (r :: rest) w rest2 hv
                    rw [if_neg hr2] at hv2
                    rw [show unmarshalValue f (r :: (rest ++ e))
                        = Except.ok (w, rest2 ++ e) from hv2]
                    exact iha 2 (vals ++ [w]) rest2 a rr h'
          · rw [if_neg h1] at h ⊢
            by_cases h2 : st = 2
            · rw [if_pos h2] at h ⊢
              by_cases hcm : r = ','
              · rw [if_pos hcm] at h ⊢; exact iha 1 vals rest a rr h
              · rw [if_neg hcm] at h ⊢
                by_cases hbr : r = ']'
                · rw [if_pos hbr] at h ⊢
                  injection h with h2'
                  injection h2' with ha hrr
                  subst ha; subst hrr
                  rfl
                · rw [if_neg hbr] at h; exact Except.noConfusion h
            · rw [if_neg h2] at h ⊢
              exact iha st vals rest a rr h

/-- Prepending whitespace-only text does not change the value production:
its first action is the whitespace skip. -/
theorem unmarshalValue_ws_prefix (g : Nat) {p : List Char}
    (hp : ∀ c ∈ p, isJsonWhitespace c = true) (u : List Char) :
    unmarshalValue (g + 1) (p ++ u) = unmarshalValue (g + 1) u := by
  cases hw : unmarshalWhitespace u with
  | nil =>
    have hw2 : unmarshalWhitespace (p ++ u) = [] := by
      rw [unmarshalWhitespace_append, unmarshalWhitespace_wsOnly hp]
      simp [hw]
    rw [unmarshalValue_nil g hw2, unmarshalValue_nil g hw]
  | cons r rest =>
    have hw2 : unmarshalWhitespace (p ++ u) = r :: rest := by
      rw [unmarshalWhitespace_append, unmarshalWhitespace_wsOnly hp]
      simp [hw]
    rw [unmarshalValue_step g hw2, unmarshalValue_step g hw]

/-- C1: evaluation of the code at the failing input.  The array loop reuses
state 1 both after the opening bracket and after a comma and accepts a
closing bracket there, so "[1,2,]" decodes successfully to the two-element
array instead of failing with a malformed-array error. -/
theorem c1_trailing_comma_accepted :
    decode "[1,2,]".toList = .ok (.array [.integer 1, .integer 2]) := rfl

/-- C2: evaluation of the code at the failing input.  In the object loop's
state 4 (haveValue) a rune that is neither a closing brace nor a comma is
silently skipped rather than failing, so a stray x after the value is
swallowed and the parse succeeds. -/
theorem c2_havevalue_skips :
    decode "\x7b\"a\": 1x\x7d".toList = .ok (.object [(['a'], .integer 1)]) := rfl

/-- C3 counterexample: decoding the top-level input "01" does not fail; the
number production stops after the 0 and the entry point leaves the trailing
1 unconsumed, returning Integer 0. -/
theorem c3_counterexample :
    decode "01".toList = .ok (.integer 0) ∧ ∀ e, decode "01".toList ≠ .error e :=
  ⟨rfl, fun _ h =>
    Except.noConfusion ((rfl : decode "01".toList = .ok (.integer 0)).symm.trans h)⟩

/-- C3 amended: decoding the top-level text "01" succeeds with Integer 0 and
leaves the trailing digit unconsumed (the entry point does not require end
of input), while "[01]" fails inside the array production because the 0
completes a number and the bare following digit is not a valid
continuation. -/
theorem c3_amended :
    decode "01".toList = .ok (.integer 0)
    ∧ unmarshalValue (4 * ("01".toList).length + 4) "01".toList
        = .ok (.integer 0, ['1'])
    ∧ decode "[01]".toList = .error .arrayNoCommaOrBracket :=
  ⟨rfl, rfl, rfl⟩

set_option maxRecDepth 4000 in
/-- C5: number boundary results of the number production: "0" and "-0" give
Integer 0 (the sign on zero is lost), "1.5e2" gives the float 150, "-3"
gives Integer -3. -/
theorem c5_number_boundaries :
    decode "0".toList = .ok (.integer 0)
    ∧ decode "-0".toList = .ok (.integer 0)
    ∧ decode "1.5e2".toList = .ok (.float (f64OfInt 150))
    ∧ decode "-3".toList = .ok (.integer (-3)) :=
  ⟨rfl, rfl, rfl, rfl⟩

/-- C6 counterexample: U+0663 ARABIC-INDIC DIGIT THREE is not an ASCII digit,
yet the dispatch (which uses unicode.IsDigit) sends it into the number
production, which fails at integer conversion; the failure is not the
UnexpectedCharacter dispatch error the claim requires. -/
theorem c6_counterexample :
    decode ['٣'] = .error (.intConvFail ['٣'])
    ∧ JErr.intConvFail ['٣'] ≠ JErr.unexpectedChar '٣' :=
  ⟨rfl, fun h => JErr.noConfusion h⟩

/-- C7: evaluation of the code at the failing input.  In state 3 the object
loop consumes and discards one rune before calling UnmarshalValue, so with
no whitespace after the colon the first rune of the value is lost:
"{\"a\":1,\"a\":2}" fails instead of producing the object.  With whitespace
after each colon (the discarded rune then being a space) the same duplicate
key input shows the intended last-write-wins mapping. -/
theorem c7_duplicate_key_decode :
    decode "\x7b\"a\":1,\"a\":2\x7d".toList = .error (.objectValueFail ['a'])
    ∧ decode "\x7b\"a\": 1, \"a\": 2\x7d".toList = .ok (.object [(['a'], .integer 2)]) :=
  ⟨rfl, rfl⟩

/-- C4 counterexample: the float 2.0 contains no Object variant, its encoding
is the text "2" (FormatFloat's shortest form drops the point), and decoding
"2" yields Integer 2, which is not structurally equal to Float 2.0. -/
theorem c4_counterexample :
    marshalValue (.float (f64OfInt 2)) = ['2']
    ∧ decode (marshalValue (.float (f64OfInt 2))) = .ok (.integer 2)
    ∧ ∀ x, Value.integer 2 ≠ Value.float x :=
  ⟨rfl, rfl, fun _ h => Value.noConfusion h⟩

/-- C8: MarshalString wraps the string in double quotes and escapes exactly
the seven code points double quote, backslash, backspace, form feed,
newline, carriage return and tab; every other code point is written
verbatim, so in particular no \uXXXX escape is ever emitted. -/
theorem c8_escapes :
    (∀ s, marshalString s = '"' :: (s.flatMap escGo ++ ['"']))
    ∧ escGo '"' = ['\\', '"'] ∧ escGo '\\' = ['\\', '\\']
    ∧ escGo '\x08' = ['\\', 'b'] ∧ escGo '\x0C' = ['\\', 'f']
    ∧ escGo '\n' = ['\\', 'n'] ∧ escGo '\x0D' = ['\\', 'r']
    ∧ escGo '\t' = ['\\', 't']
    ∧ ∀ c, c ∉ ['"', '\\', '\x08', '\x0C', '\n', '\x0D', '\t'] → escGo c = [c] := by
  refine ⟨fun s => ?_, rfl, rfl, rfl, rfl, rfl, rfl, rfl, fun c hc => ?_⟩
  · show '"' :: marshalStringLoop s = _
    rw [marshalStringLoop_eq]
  · simp only [List.mem_cons, List.not_mem_nil, or_false, not_or] at hc
    obtain ⟨n1, n2, n3, n4, n5, n6, n7⟩ := hc
    simp [escGo, n1, n2, n3, n4, n5, n6, n7]

/-- C8 witness: a concrete string with an escaped rune, and a concrete
non-listed rune written verbatim. -/
theorem c8_witness :
    marshalString ['a', '\n'] = ['"', 'a', '\\', 'n', '"'] ∧ escGo 'Ω' = ['Ω'] := by
  have h := c8_escapes
  refine ⟨?_, h.2.2.2.2.2.2.2.2 'Ω' (by decide)⟩
  rw [h.1]
  rfl

/-- C6 amended: after skipping leading whitespace, a next character that is
none of a double quote, a Unicode decimal digit (the dispatch uses
unicode.IsDigit, not an ASCII digit test), a minus sign, an opening brace,
an opening bracket, or the first letter of true, false or null makes decode
fail with the UnexpectedCharacter dispatch error. -/
theorem c6_dispatch (s : List Char) (c : Char) (rest : List Char)
    (hw : unmarshalWhitespace s = c :: rest)
    (hd : goIsDigit c = false)
    (h1 : c ≠ '"') (h2 : c ≠ '-') (h3 : c ≠ '{') (h4 : c ≠ '[')
    (h5 : c ≠ 't') (h6 : c ≠ 'f') (h7 : c ≠ 'n') :
    decode s = .error (.unexpectedChar c) := by
  have hfuel : 4 * s.length + 4 = (4 * s.length + 3) + 1 := rfl
  simp only [decode, hfuel, unmarshalValue, hw]
  simp [hd, h1, h2, h3, h4, h5, h6, h7]

/-- C6 witness: the at-sign dispatches to no production. -/
theorem c6_witness : decode ['@'] = .error (.unexpectedChar '@') :=
  c6_dispatch ['@'] '@' [] rfl rfl (by decide) (by decide) (by decide)
    (by decide) (by decide) (by decide) (by decide)

/-- C10: a \uXXXX escape whose four hex digits denote a value in the UTF-16
surrogate range 0xD800-0xDFFF does not put a lone surrogate code point into
the decoded string: the builder's rune write replaces the invalid rune, so
the string production yields the replacement character U+FFFD at that
position. -/
theorem c10_surrogate (h1 h2 h3 h4 : Char) (rest : List Char) (n : Int)
    (hp : parseHex32 [h1, h2, h3, h4] = some n)
    (hlo : 0xD800 ≤ n) (hhi : n ≤ 0xDFFF) :
    unmarshalString ('"' :: '\\' :: 'u' :: h1 :: h2 :: h3 :: h4 :: '"' :: rest)
      = .ok (['�'], rest) := by
  have hrep : goWriteRune n = '�' := by
    unfold goWriteRune
    rw [if_neg]
    rintro ⟨hn, hv⟩
    simp only [Nat.isValidChar] at hv
    omega
  have step : stringLoop false [] ('\\' :: 'u' :: h1 :: h2 :: h3 :: h4 :: '"' :: rest)
      = match parseHex32 [h1, h2, h3, h4] with
        | some m => stringLoop false ([] ++ [goWriteRune m]) ('"' :: rest)
        | none => .error .unicodeConvFail := rfl
  show stringLoop false [] ('\\' :: 'u' :: h1 :: h2 :: h3 :: h4 :: '"' :: rest)
      = .ok (['�'], rest)
  rw [step, hp]
  show stringLoop false ([] ++ [goWriteRune n]) ('"' :: rest) = .ok (['�'], rest)
  rw [hrep]
  rfl

/-- C10 witness: decoding the escape \uD800 yields the replacement
character. -/
theorem c10_witness :
    unmarshalString ('"' :: '\\' :: 'u' :: 'D' :: '8' :: '0' :: '0' :: '"' :: [])
      = .ok (['�'], []) :=
  c10_surrogate 'D' '8' '0' '0' [] 0xD800 rfl (by decide) (by decide)


/-- C9: whitespace handling is idempotent at the entry point: every text
that decodes successfully to a Value still decodes to the same Value after
prepending the JSON whitespace run " \t\n " and appending " \n".  Leading
whitespace is consumed by the initial skip of UnmarshalValue, and trailing
whitespace is absorbed by the token-final reads and the trailing skip. -/
theorem c9_whitespace_idempotent (text : List Char) (v : Value)
    (h : decode text = .ok v) :
    decode (" \t\n ".toList ++ text ++ " \n".toList) = .ok v := by
  have hpad : ∀ c ∈ " \t\n ".toList, isJsonWhitespace c = true := by decide
  have hsuf : ∀ c ∈ " \n".toList, isJsonWhitespace c = true := by decide
  unfold decode at h
  cases hu : unmarshalValue (4 * text.length + 4) text with
  | error err =>
    rw [hu] at h
    exact absurd (show (Except.error err : Except JErr Value) = .ok v from h)
      (fun hh => Except.noConfusion hh)
  | ok p =>
    obtain ⟨v0, r0⟩ := p
    rw [hu] at h
    have hv : v0 = v := by
      have h' : (Except.ok v0 : Except JErr Value) = .ok v := h
      injection h'
    subst hv
    have hsim := (unmarshal_append_ws hsuf (4 * text.length + 4)).1 text v0 r0 hu
    have hp4 : (" \t\n ".toList).length = 4 := rfl
    have hs2 : (" \n".toList).length = 2 := rfl
    have hF : 4 * (" \t\n ".toList ++ text ++ " \n".toList).length + 4
        = 4 * (text.length + 6) + 4 := by
      simp only [List.length_append, hp4, hs2]
      omega
    have hmono : unmarshalValue (4 * (text.length + 6) + 4)
        (text ++ " \n".toList)
        = .ok (v0, if r0 = [] then [] else r0 ++ " \n".toList) :=
      unmarshalValue_mono (by omega) hsim
    have hg : 4 * (text.length + 6) + 4 = (4 * (text.length + 6) + 3) + 1 := by
      omega
    unfold decode
    rw [hF, List.append_assoc, hg,
      unmarshalValue_ws_prefix (4 * (text.length + 6) + 3) hpad
        (text ++ " \n".toList),
      ← hg, hmono]

/-- C9 witness: the text "1" decodes to Integer 1, and so does the same text
wrapped in the padding whitespace. -/
theorem c9_pad_witness :
    decode (" \t\n ".toList ++ "1".toList ++ " \n".toList)
      = .ok (.integer 1) :=
  c9_whitespace_idempotent "1".toList (.integer 1) rfl

end GoJson
